import Mathlib

/-!
Verification of the metadata-tree model and navigation/derivation engine of the
data-tree-browser application (app.js).

The JavaScript source is shallowly embedded: JSON documents become the inductive
type JVal, the path-keyed node map of the tree builder becomes an insertion-ordered
association list (mirroring a JS Map), and each function of app.js is translated
into a computable Lean definition carrying the same name where possible
(normalizePath, dirname, basename, join, buildTree, ensureNode, inferArrayDims,
deepEqualSimple, setActive, onApplyNamingSpec, ...).

Modelling conventions, noted once here:
- JS strings are Lean String; character-level behaviour (split, replace of slash
  runs) is implemented on List Char.
- JS Array.prototype.sort with a localeCompare comparator is modelled as sorting
  by the ≤ order on String (codepoint order); the inputs of interest are plain
  ASCII names for which the two agree.
- JS Map and plain-object mutation is modelled functionally: Map.set updates an
  existing key in place (keeping its position) or appends, exactly as JS Maps
  preserve insertion order.
- JSON.parse output never contains duplicate object keys and never aliases, so
  jobj association lists are treated as built by such set operations, and strict
  equality (===) between two distinct non-primitive values is modelled as false.
- The for-of iteration of pathMap.keys() in buildTree visits keys inserted during
  the iteration (JS Map iterator semantics); it is modelled as a worklist with an
  explicit fuel that is proved (and, for concrete inputs, computed) sufficient.
-/

/-- A JSON-like value as produced by JSON.parse: null, booleans, numbers
(restricted to integers, which covers all manifest shapes and attributes used
here), strings, arrays and objects. Objects are insertion-ordered association
lists. -/
inductive JVal where
  | jnull : JVal
  | jbool (b : Bool) : JVal
  | jnum (n : Int) : JVal
  | jstr (s : String) : JVal
  | jarr (xs : List JVal) : JVal
  | jobj (kvs : List (String × JVal)) : JVal

mutual

def jvalDEq : (a b : JVal) → Decidable (a = b)
  | .jnull, .jnull => isTrue rfl
  | .jbool x, .jbool y => if h : x = y then isTrue (by rw [h]) else isFalse (by simp [h])
  | .jnum x, .jnum y => if h : x = y then isTrue (by rw [h]) else isFalse (by simp [h])
  | .jstr x, .jstr y => if h : x = y then isTrue (by rw [h]) else isFalse (by simp [h])
  | .jarr xs, .jarr ys =>
    match jlistDEq xs ys with
    | isTrue h => isTrue (by rw [h])
    | isFalse h => isFalse (by simp [h])
  | .jobj xs, .jobj ys =>
    match jobjDEq xs ys with
    | isTrue h => isTrue (by rw [h])
    | isFalse h => isFalse (by simp [h])
  | .jnull, .jbool _ => isFalse (by simp)
  | .jnull, .jnum _ => isFalse (by simp)
  | .jnull, .jstr _ => isFalse (by simp)
  | .jnull, .jarr _ => isFalse (by simp)
  | .jnull, .jobj _ => isFalse (by simp)
  | .jbool _, .jnull => isFalse (by simp)
  | .jbool _, .jnum _ => isFalse (by simp)
  | .jbool _, .jstr _ => isFalse (by simp)
  | .jbool _, .jarr _ => isFalse (by simp)
  | .jbool _, .jobj _ => isFalse (by simp)
  | .jnum _, .jnull => isFalse (by simp)
  | .jnum _, .jbool _ => isFalse (by simp)
  | .jnum _, .jstr _ => isFalse (by simp)
  | .jnum _, .jarr _ => isFalse (by simp)
  | .jnum _, .jobj _ => isFalse (by simp)
  | .jstr _, .jnull => isFalse (by simp)
  | .jstr _, .jbool _ => isFalse (by simp)
  | .jstr _, .jnum _ => isFalse (by simp)
  | .jstr _, .jarr _ => isFalse (by simp)
  | .jstr _, .jobj _ => isFalse (by simp)
  | .jarr _, .jnull => isFalse (by simp)
  | .jarr _, .jbool _ => isFalse (by simp)
  | .jarr _, .jnum _ => isFalse (by simp)
  | .jarr _, .jstr _ => isFalse (by simp)
  | .jarr _, .jobj _ => isFalse (by simp)
  | .jobj _, .jnull => isFalse (by simp)
  | .jobj _, .jbool _ => isFalse (by simp)
  | .jobj _, .jnum _ => isFalse (by simp)
  | .jobj _, .jstr _ => isFalse (by simp)
  | .jobj _, .jarr _ => isFalse (by simp)

def jlistDEq : (a b : List JVal) → Decidable (a = b)
  | [], [] => isTrue rfl
  | [], _ :: _ => isFalse (by simp)
  | _ :: _, [] => isFalse (by simp)
  | x :: xs, y :: ys =>
    match jvalDEq x y, jlistDEq xs ys with
    | isTrue h1, isTrue h2 => isTrue (by rw [h1, h2])
    | isFalse h1, _ => isFalse (by simp [h1])
    | _, isFalse h2 => isFalse (by simp [h2])

def jobjDEq : (a b : List (String × JVal)) → Decidable (a = b)
  | [], [] => isTrue rfl
  | [], _ :: _ => isFalse (by simp)
  | _ :: _, [] => isFalse (by simp)
  | (k, v) :: xs, (l, w) :: ys =>
    match String.decEq k l, jvalDEq v w, jobjDEq xs ys with
    | isTrue h0, isTrue h1, isTrue h2 => isTrue (by rw [h0, h1, h2])
    | isFalse h0, _, _ => isFalse (by simp [h0])
    | _, isFalse h1, _ => isFalse (by simp [h1])
    | _, _, isFalse h2 => isFalse (by simp [h2])

end

instance : DecidableEq JVal := jvalDEq

/-- JS truthiness of a JSON value: null, false, 0 and the empty string are
falsy; every array and object is truthy. -/
def jsTruthy : JVal → Bool
  | .jnull => false
  | .jbool b => b
  | .jnum n => decide (n ≠ 0)
  | .jstr s => decide (s ≠ "")
  | .jarr _ => true
  | .jobj _ => true

/-- The JS typeof string of a JSON value (null, arrays and objects all report
"object"). -/
def jsTypeof : JVal → String
  | .jnull => "object"
  | .jbool _ => "boolean"
  | .jnum _ => "number"
  | .jstr _ => "string"
  | .jarr _ => "object"
  | .jobj _ => "object"

/-- First-match lookup in an insertion-ordered association list; keys are unique
in lists built by assocSet, matching a JS object or Map. -/
def assocGet (kvs : List (String × JVal)) (k : String) : Option JVal :=
  match kvs with
  | [] => none
  | (k', v) :: rest => if k' = k then some v else assocGet rest k

/-- JS object assignment / Map.set: overwrite an existing key in place (keeping
its original position, as JS does) or append a new key at the end. -/
def assocSet (kvs : List (String × JVal)) (k : String) (v : JVal) : List (String × JVal) :=
  match kvs with
  | [] => [(k, v)]
  | (k', v') :: rest => if k' = k then (k', v) :: rest else (k', v') :: assocSet rest k v

/-- JS property read v[k] for a non-index string key: defined on objects,
undefined (none) on every other value. -/
def jpropGet (v : JVal) (k : String) : Option JVal :=
  match v with
  | .jobj kvs => assocGet kvs k
  | _ => none

/-- JS strict equality (===) between two JSON values: value equality on
primitives; distinct non-primitive values compare unequal (JSON.parse output
never aliases, so reference equality of two separately parsed objects is
false). -/
def jsStrictEq : JVal → JVal → Bool
  | .jnull, .jnull => true
  | .jbool a, .jbool b => a == b
  | .jnum a, .jnum b => a == b
  | .jstr a, .jstr b => a == b
  | _, _ => false

def quoteJ (s : String) : String := "\"" ++ s ++ "\""

mutual

/-- JSON.stringify of a value (numbers are integers, strings of interest contain
no characters needing escapes). Object keys are emitted in insertion order,
exactly as JS does. -/
def stringify : JVal → String
  | .jnull => "null"
  | .jbool true => "true"
  | .jbool false => "false"
  | .jnum n => toString n
  | .jstr s => quoteJ s
  | .jarr xs => "[" ++ stringifyList xs ++ "]"
  | .jobj kvs => "\x7b" ++ stringifyObj kvs ++ "\x7d"

def stringifyList : List JVal → String
  | [] => ""
  | [x] => stringify x
  | x :: xs => stringify x ++ "," ++ stringifyList xs

def stringifyObj : List (String × JVal) → String
  | [] => ""
  | [(k, v)] => quoteJ k ++ ":" ++ stringify v
  | (k, v) :: kvs => quoteJ k ++ ":" ++ stringify v ++ "," ++ stringifyObj kvs

end

/-- app.js deepEqualSimple: strict equality, then a typeof comparison, then (for
two truthy objects) equality of the JSON.stringify serialisations. Arguments are
Options because the JS call sites pass possibly-missing attribute values
(undefined). -/
def deepEqualSimple : Option JVal → Option JVal → Bool
  | none, none => true
  | none, some _ => false
  | some _, none => false
  | some a, some b =>
    match a, b with
    | .jnull, .jnull => true
    | .jbool x, .jbool y => x == y
    | .jnum x, .jnum y => x == y
    | .jstr x, .jstr y => x == y
    | .jarr xs, .jarr ys => stringify (.jarr xs) == stringify (.jarr ys)
    | .jarr xs, .jobj ys => stringify (.jarr xs) == stringify (.jobj ys)
    | .jobj xs, .jarr ys => stringify (.jobj xs) == stringify (.jarr ys)
    | .jobj xs, .jobj ys => stringify (.jobj xs) == stringify (.jobj ys)
    | _, _ => false

/-! ## Character-level string utilities

app.js manipulates paths with String.prototype.split, String.prototype.replace
on slash-run regexes, and concatenation. These are modelled on List Char. -/

/-- JS String.prototype.split with a single-character separator: keeps empty
pieces, and splitting the empty string yields one empty piece. -/
def jsSplitCh (sep : Char) : List Char → List (List Char)
  | [] => [[]]
  | c :: rest =>
    if c = sep then [] :: jsSplitCh sep rest
    else
      match jsSplitCh sep rest with
      | s :: t => (c :: s) :: t
      | [] => [[c]]

/-- The regex replace of every run of slashes by a single slash
(p.replace of slash-plus by a slash). -/
def collapseSlashes : List Char → List Char
  | [] => []
  | [c] => [c]
  | a :: b :: rest =>
    if a = '/' ∧ b = '/' then collapseSlashes (b :: rest)
    else a :: collapseSlashes (b :: rest)

/-- Force a leading slash when absent. -/
def ensureLead (l : List Char) : List Char :=
  if l.head? = some '/' then l else '/' :: l

/-- Strip one trailing slash when the string is longer than a single character
(the replace of a trailing slash, guarded by length greater than one). -/
def stripTrail (l : List Char) : List Char :=
  if 1 < l.length ∧ l.getLast? = some '/' then l.dropLast else l

/-- app.js normalizePath: empty input maps to the root path, otherwise collapse
slash runs, force a leading slash, and strip a trailing slash except at root. -/
def normalizePath (p : String) : String :=
  if p = "" then "/" else String.mk (stripTrail (ensureLead (collapseSlashes p.data)))

/-- The nonempty segments of a path: split on the slash and drop empty pieces
(split followed by a filter on truthiness in the JS source). -/
def segsOf (l : List Char) : List (List Char) :=
  (jsSplitCh '/' l).filter (· ≠ [])

/-- parts.join with a slash separator. -/
def joinSegs : List (List Char) → List Char
  | [] => []
  | [s] => s
  | s :: rest => s ++ '/' :: joinSegs rest

/-- app.js dirname: normalize, return root for root, otherwise drop the last
nonempty segment and rejoin behind a leading slash. -/
def dirname (p : String) : String :=
  let np := normalizePath p
  if np = "/" then "/"
  else String.mk ('/' :: joinSegs ((segsOf np.data).dropLast))

/-- app.js basename: normalize, return the separator for root, otherwise the
last nonempty segment (an absent or empty last piece also yields the
separator, mirroring the or-slash fallback). -/
def basename (p : String) : String :=
  let np := normalizePath p
  if np = "/" then "/"
  else
    match (segsOf np.data).getLast? with
    | some seg => if seg = [] then "/" else String.mk seg
    | none => "/"

/-- app.js join: normalize the parent, concatenate with a slash (or directly
behind the root slash), and normalize the result. -/
def join (parent childBase : String) : String :=
  let pp := normalizePath parent
  let out := if pp = "/" then "/" ++ childBase else pp ++ "/" ++ childBase
  normalizePath out

/-- Suffix test on strings (String.prototype.endsWith). -/
def strEndsWith (s suffix : String) : Bool :=
  suffix.data.isSuffixOf s.data

/-- Test that one string starts with another (String.prototype.startsWith). -/
def strStartsWith (s pre : String) : Bool :=
  pre.data.isPrefixOf s.data

example : normalizePath "a//b/" = "/a/b" := by decide
example : normalizePath "" = "/" := by decide
example : dirname "/a/b" = "/a" := by decide
example : dirname "/a" = "/" := by decide
example : basename "/a/b" = "b" := by decide
example : join "/a" "b" = "/a/b" := by decide
example : join "/" "a" = "/a" := by decide
example : jsSplitCh '_' "x__y".data = ["x".data, [], "y".data] := by decide

/-! ## Path lemma library -/

theorem strData_inj {s t : String} (h : s.data = t.data) : s = t := by
  cases s; cases t; exact congrArg String.mk h

theorem jsSplitCh_ne_nil (sep : Char) (l : List Char) : jsSplitCh sep l ≠ [] := by
  induction l with
  | nil => simp [jsSplitCh]
  | cons c rest ih =>
    simp only [jsSplitCh]
    by_cases h : c = sep
    · simp [h]
    · simp only [h, if_false]
      rcases hr : jsSplitCh sep rest with _ | ⟨s, t⟩ <;> simp

theorem jsSplitCh_cons_sep (sep : Char) (l : List Char) :
    jsSplitCh sep (sep :: l) = [] :: jsSplitCh sep l := by
  simp [jsSplitCh]

theorem jsSplitCh_cons_ne (sep c : Char) (l : List Char) (h : c ≠ sep) :
    jsSplitCh sep (c :: l) = (c :: (jsSplitCh sep l).headI) :: (jsSplitCh sep l).tail := by
  simp only [jsSplitCh, h, if_false]
  rcases hr : jsSplitCh sep l with _ | ⟨s, t⟩
  · exact absurd hr (jsSplitCh_ne_nil sep l)
  · rfl

theorem jsSplitCh_append (sep : Char) (l m : List Char) :
    jsSplitCh sep (l ++ sep :: m) = jsSplitCh sep l ++ jsSplitCh sep m := by
  induction l with
  | nil => rw [List.nil_append, jsSplitCh_cons_sep]; rfl
  | cons c rest ih =>
    by_cases h : c = sep
    · subst h
      rw [List.cons_append, jsSplitCh_cons_sep, jsSplitCh_cons_sep, ih, List.cons_append]
    · rw [List.cons_append, jsSplitCh_cons_ne sep c _ h, jsSplitCh_cons_ne sep c rest h, ih]
      rcases hr : jsSplitCh sep rest with _ | ⟨s, t⟩
      · exact absurd hr (jsSplitCh_ne_nil sep rest)
      · simp

theorem mem_jsSplitCh_not_sep {sep : Char} {l s : List Char}
    (hs : s ∈ jsSplitCh sep l) : sep ∉ s := by
  induction l generalizing s with
  | nil =>
    simp only [jsSplitCh, List.mem_singleton] at hs
    simp [hs]
  | cons c rest ih =>
    by_cases h : c = sep
    · subst h
      rw [jsSplitCh_cons_sep] at hs
      rcases List.mem_cons.mp hs with hs | hs
      · simp [hs]
      · exact ih hs
    · rw [jsSplitCh_cons_ne sep c rest h] at hs
      rcases hr : jsSplitCh sep rest with _ | ⟨s0, t⟩
      · exact absurd hr (jsSplitCh_ne_nil sep rest)
      · rw [hr] at hs
        rcases List.mem_cons.mp hs with hs | hs
        · subst hs
          intro hmem
          rcases List.mem_cons.mp hmem with hc | hc
          · exact h hc.symm
          · exact ih (by simp [hr]) hc
        · exact ih (show s ∈ jsSplitCh sep rest by rw [hr]; exact List.mem_cons_of_mem _ hs)

theorem segsOf_nil : segsOf [] = [] := by decide

theorem segsOf_cons_slash (l : List Char) : segsOf ('/' :: l) = segsOf l := by
  simp [segsOf, jsSplitCh_cons_sep]

theorem segsOf_append (l m : List Char) :
    segsOf (l ++ '/' :: m) = segsOf l ++ segsOf m := by
  simp [segsOf, jsSplitCh_append, List.filter_append]

theorem segsOf_valid {l s : List Char} (hs : s ∈ segsOf l) : s ≠ [] ∧ '/' ∉ s := by
  have h1 : s ∈ jsSplitCh '/' l := List.mem_of_mem_filter hs
  have h2 := List.of_mem_filter hs
  refine ⟨by simpa using h2, mem_jsSplitCh_not_sep h1⟩

theorem jsSplitCh_of_not_mem {sep : Char} {l : List Char} (h : sep ∉ l) :
    jsSplitCh sep l = [l] := by
  induction l with
  | nil => rfl
  | cons c rest ih =>
    have hc : c ≠ sep := fun hc => h (hc ▸ List.mem_cons_self c rest)
    have hrest : sep ∉ rest := fun hm => h (List.mem_cons_of_mem _ hm)
    rw [jsSplitCh_cons_ne sep c rest hc, ih hrest]
    rfl

theorem segsOf_of_noslash {l : List Char} (h1 : l ≠ []) (h2 : '/' ∉ l) :
    segsOf l = [l] := by
  simp [segsOf, jsSplitCh_of_not_mem h2, h1]

theorem segsOf_joinSegs {ps : List (List Char)}
    (hv : ∀ s ∈ ps, s ≠ [] ∧ '/' ∉ s) : segsOf (joinSegs ps) = ps := by
  induction ps with
  | nil => exact segsOf_nil
  | cons s rest ih =>
    rcases rest with _ | ⟨s2, rest2⟩
    · have := hv s (List.mem_cons_self s [])
      exact segsOf_of_noslash this.1 this.2
    · have hs := hv s (List.mem_cons_self _ _)
      have hrest : ∀ x ∈ s2 :: rest2, x ≠ [] ∧ '/' ∉ x :=
        fun x hx => hv x (List.mem_cons_of_mem _ hx)
      show segsOf (s ++ '/' :: joinSegs (s2 :: rest2)) = _
      rw [segsOf_append, segsOf_of_noslash hs.1 hs.2, ih hrest]
      rfl

/-- No two adjacent slashes occur in the character list. -/
def noDS : List Char → Prop
  | [] => True
  | a :: rest => ¬(a = '/' ∧ rest.head? = some '/') ∧ noDS rest

theorem noDS_nil : noDS [] := trivial

theorem noDS_cons {a : Char} {rest : List Char} :
    noDS (a :: rest) ↔ ¬(a = '/' ∧ rest.head? = some '/') ∧ noDS rest := Iff.rfl

theorem noDS_tail {a : Char} {rest : List Char} (h : noDS (a :: rest)) : noDS rest := h.2

theorem noDS_append_right {l m : List Char} (h : noDS (l ++ m)) : noDS m := by
  induction l with
  | nil => exact h
  | cons a rest ih => exact ih (noDS_tail h)

theorem collapseSlashes_head (l : List Char) :
    (collapseSlashes l).head? = l.head? := by
  induction l with
  | nil => rfl
  | cons a rest ih =>
    rcases rest with _ | ⟨b, rest2⟩
    · rfl
    · show (collapseSlashes (a :: b :: rest2)).head? = _
      rw [collapseSlashes]
      by_cases hab : a = '/' ∧ b = '/'
      · rw [if_pos hab, ih]
        simp [hab.1, hab.2]
      · rw [if_neg hab]
        rfl

theorem collapseSlashes_ne_nil {l : List Char} (h : l ≠ []) : collapseSlashes l ≠ [] := by
  intro hc
  have := collapseSlashes_head l
  rw [hc] at this
  rcases l with _ | ⟨a, rest⟩
  · exact h rfl
  · simp at this

theorem collapseSlashes_noDS (l : List Char) : noDS (collapseSlashes l) := by
  induction l with
  | nil => exact trivial
  | cons a rest ih =>
    rcases rest with _ | ⟨b, rest2⟩
    · exact ⟨by simp, trivial⟩
    · show noDS (collapseSlashes (a :: b :: rest2))
      rw [collapseSlashes]
      by_cases hab : a = '/' ∧ b = '/'
      · rw [if_pos hab]; exact ih
      · rw [if_neg hab]
        refine ⟨?_, ih⟩
        rw [collapseSlashes_head (b :: rest2)]
        intro hcon
        simp only [List.head?_cons, Option.some.injEq] at hcon
        exact hab ⟨hcon.1, hcon.2⟩

theorem segsOf_cons_of_head_slash {a : Char} {X : List Char}
    (hX : X.head? = some '/' ∨ X = []) (ha : a ≠ '/') :
    segsOf (a :: X) = [a] :: segsOf X := by
  rcases hX with hX | hX
  · rcases X with _ | ⟨x, X'⟩
    · simp at hX
    · simp only [List.head?_cons, Option.some.injEq] at hX
      subst hX
      rw [show segsOf (a :: '/' :: X') = _ from by
        simp only [segsOf, jsSplitCh_cons_ne '/' a ('/' :: X') ha, jsSplitCh_cons_sep]
        rfl]
      rw [segsOf_cons_slash]
      simp [segsOf, List.filter_cons, ha]
  · subst hX
    simp [segsOf, jsSplitCh, ha]

theorem segsOf_cons_of_head_ne {a : Char} {X : List Char}
    (hne : X ≠ []) (hX : X.head? ≠ some '/') (ha : a ≠ '/') :
    segsOf (a :: X) = (a :: (segsOf X).headI) :: (segsOf X).tail := by
  rcases X with _ | ⟨x, X'⟩
  · exact absurd rfl hne
  · have hx : x ≠ '/' := fun h => hX (by simp [h])
    have e1 : jsSplitCh '/' (x :: X') =
        (x :: (jsSplitCh '/' X').headI) :: (jsSplitCh '/' X').tail :=
      jsSplitCh_cons_ne '/' x X' hx
    have e2 : jsSplitCh '/' (a :: x :: X') =
        (a :: x :: (jsSplitCh '/' X').headI) :: (jsSplitCh '/' X').tail := by
      rw [jsSplitCh_cons_ne '/' a (x :: X') ha, e1]
      rfl
    rw [show segsOf (a :: x :: X') =
        (a :: x :: (jsSplitCh '/' X').headI) :: ((jsSplitCh '/' X').tail.filter (· ≠ [])) from by
      simp [segsOf, e2, List.filter_cons]]
    rw [show segsOf (x :: X') =
        (x :: (jsSplitCh '/' X').headI) :: ((jsSplitCh '/' X').tail.filter (· ≠ [])) from by
      simp [segsOf, e1, List.filter_cons]]
    rfl

theorem segsOf_collapseSlashes (l : List Char) :
    segsOf (collapseSlashes l) = segsOf l := by
  induction l with
  | nil => rfl
  | cons a rest ih =>
    rcases rest with _ | ⟨b, rest2⟩
    · rfl
    · show segsOf (collapseSlashes (a :: b :: rest2)) = _
      rw [collapseSlashes]
      by_cases hab : a = '/' ∧ b = '/'
      · rw [if_pos hab, ih, hab.1, segsOf_cons_slash]
      · rw [if_neg hab]
        have hhead : (collapseSlashes (b :: rest2)).head? = some b :=
          collapseSlashes_head (b :: rest2)
        have hnn : collapseSlashes (b :: rest2) ≠ [] :=
          collapseSlashes_ne_nil (by simp)
        by_cases ha : a = '/'
        · subst ha
          rw [segsOf_cons_slash, segsOf_cons_slash]
          exact ih
        · by_cases hb : b = '/'
          · rw [segsOf_cons_of_head_slash (Or.inl (by rw [hhead, hb])) ha,
                segsOf_cons_of_head_slash (Or.inl (by rw [hb]; rfl)) ha, ih]
          · rw [segsOf_cons_of_head_ne hnn (by rw [hhead]; simp [hb]) ha,
                segsOf_cons_of_head_ne (by simp) (by simp [hb]) ha, ih]

theorem segsOf_ne_nil_of_head_ne {l : List Char} (hne : l ≠ [])
    (hh : l.head? ≠ some '/') : segsOf l ≠ [] := by
  rcases l with _ | ⟨y, l'⟩
  · exact absurd rfl hne
  · have hy : y ≠ '/' := fun h => hh (by simp [h])
    simp only [segsOf, jsSplitCh_cons_ne '/' y l' hy, List.filter_cons]
    simp

theorem joinSegs_cons_of_ne_nil {s : List Char} {rest : List (List Char)} (h : rest ≠ []) :
    joinSegs (s :: rest) = s ++ '/' :: joinSegs rest := by
  rcases rest with _ | ⟨s2, rest2⟩
  · exact absurd rfl h
  · rfl

theorem dropWhile_shape (p : Char → Bool) (l : List Char) :
    l.dropWhile p = [] ∨ ∃ x xs, l.dropWhile p = x :: xs ∧ p x = false := by
  induction l with
  | nil => left; rfl
  | cons y ys ihr =>
    by_cases hy : p y
    · rw [List.dropWhile_cons_of_pos hy]
      exact ihr
    · right
      refine ⟨y, ys, ?_, by simpa using hy⟩
      rw [List.dropWhile_cons_of_neg hy]

theorem joinSegs_segsOf_recon :
    ∀ (n : Nat) (t : List Char), t.length ≤ n → noDS t → t ≠ [] →
      t.head? ≠ some '/' → t.getLast? ≠ some '/' → joinSegs (segsOf t) = t := by
  intro n
  induction n with
  | zero =>
    intro t hlen _ hne _ _
    rcases t with _ | ⟨c, r⟩
    · exact absurd rfl hne
    · simp at hlen
  | succ n ih =>
    intro t hlen hds hne hh hl
    rcases t with _ | ⟨c, r⟩
    · exact absurd rfl hne
    · have hc : c ≠ '/' := fun h => hh (by simp [h])
      have hsplit : r.takeWhile (fun x => decide (x ≠ '/')) ++
          r.dropWhile (fun x => decide (x ≠ '/')) = r :=
        List.takeWhile_append_dropWhile _ r
      set a := r.takeWhile (fun x => decide (x ≠ '/')) with ha_def
      set d := r.dropWhile (fun x => decide (x ≠ '/')) with hd_def
      have hamem : '/' ∉ a := by
        intro hm
        have := List.mem_takeWhile_imp hm
        simp at this
      have hdcase := dropWhile_shape (fun x => decide (x ≠ '/')) r
      rw [← hd_def] at hdcase
      rcases hdcase with hd0 | ⟨x, d', hdx, hxf⟩
      · -- no slash at all in t
        have hteq : c :: r = c :: a := by rw [← hsplit, hd0, List.append_nil]
        have hnos : '/' ∉ c :: a := by
          intro hm
          rcases List.mem_cons.mp hm with hm | hm
          · exact hc hm.symm
          · exact hamem hm
        rw [hteq, segsOf_of_noslash (by simp) hnos]
        rfl
      · have hx : x = '/' := by
          by_contra hxx
          simp [hxx] at hxf
        subst hx
        -- t = (c :: a) ++ slash :: d'
        have hteq : c :: r = (c :: a) ++ '/' :: d' := by
          rw [List.cons_append, ← hsplit, hdx]
        have hd'ne : d' ≠ [] := by
          intro h0
          rw [h0] at hteq
          have : (c :: r).getLast? = some '/' := by
            rw [hteq]
            exact List.getLast?_concat _
          exact hl this
        have hds_tail : noDS ('/' :: d') := by
          have := hteq ▸ hds
          exact noDS_append_right this
        have hd'h : d'.head? ≠ some '/' := by
          intro hcon
          exact hds_tail.1 ⟨rfl, hcon⟩
        have hd'ds : noDS d' := hds_tail.2
        have hd'l : d'.getLast? ≠ some '/' := by
          intro hcon
          apply hl
          rw [hteq, show (c :: a) ++ '/' :: d' = ((c :: a) ++ ['/']) ++ d' from by simp,
              List.getLast?_append_of_ne_nil _ hd'ne]
          exact hcon
        have hd'len : d'.length ≤ n := by
          have h1 := congrArg List.length hteq
          simp only [List.length_cons, List.length_append] at h1
          have h2 : r.length + 1 ≤ n + 1 := by simpa using hlen
          omega
        have hIH := ih d' hd'len hd'ds hd'ne hd'h hd'l
        rw [hteq, segsOf_append, segsOf_of_noslash (by simp) (by
          intro hm
          rcases List.mem_cons.mp hm with hm | hm
          · exact hc hm.symm
          · exact hamem hm)]
        have hsegne : segsOf d' ≠ [] := segsOf_ne_nil_of_head_ne hd'ne hd'h
        rw [List.singleton_append, joinSegs_cons_of_ne_nil hsegne, hIH]

theorem noDS_append_left {l m : List Char} (h : noDS (l ++ m)) : noDS l := by
  induction l with
  | nil => exact trivial
  | cons a rest ih =>
    refine ⟨?_, ih h.2⟩
    intro ⟨ha, hrest⟩
    rcases rest with _ | ⟨b, rest2⟩
    · simp at hrest
    · exact h.1 ⟨ha, by simpa using hrest⟩

theorem canon_of_norm_shape (k : List Char) (hds : noDS k) (hh : k.head? = some '/')
    (hl : k.getLast? ≠ some '/' ∨ k = ['/']) : k = '/' :: joinSegs (segsOf k) := by
  rcases k with _ | ⟨c, t⟩
  · simp at hh
  · simp only [List.head?_cons, Option.some.injEq] at hh
    subst hh
    rcases ht : t with _ | ⟨x, t'⟩
    · rfl
    · rw [← ht]
      have htne : t ≠ [] := by rw [ht]; simp
      have hlast : ('/' :: t).getLast? = t.getLast? := by
        rw [show ('/' :: t) = ['/'] ++ t from rfl, List.getLast?_append_of_ne_nil _ htne]
      have hl' : t.getLast? ≠ some '/' := by
        rcases hl with hl | hl
        · rw [hlast] at hl; exact hl
        · have ht0 : t = [] := by injection hl
          rw [ht0] at ht
          simp at ht
      have hth : t.head? ≠ some '/' := by
        intro hcon
        exact hds.1 ⟨rfl, hcon⟩
      have := joinSegs_segsOf_recon t.length t le_rfl hds.2 htne hth hl'
      rw [segsOf_cons_slash, this]

theorem normalizePath_data (p : String) :
    (normalizePath p).data = '/' :: joinSegs (segsOf p.data) := by
  by_cases hp : p = ""
  · subst hp
    rfl
  · have hpd : p.data ≠ [] := by
      intro h0
      apply hp
      have : p = String.mk p.data := rfl
      rw [this, h0]
    have hnp : (normalizePath p).data = stripTrail (ensureLead (collapseSlashes p.data)) := by
      simp [normalizePath, hp]
    -- properties of the intermediate value after collapsing and forcing a lead slash
    have hk1ne : collapseSlashes p.data ≠ [] := collapseSlashes_ne_nil hpd
    have hk1ds : noDS (collapseSlashes p.data) := collapseSlashes_noDS p.data
    have hk1segs : segsOf (collapseSlashes p.data) = segsOf p.data := segsOf_collapseSlashes p.data
    set k2 := ensureLead (collapseSlashes p.data) with hk2_def
    have hk2h : k2.head? = some '/' := by
      rw [hk2_def, ensureLead]
      by_cases h1 : (collapseSlashes p.data).head? = some '/'
      · rw [if_pos h1]; exact h1
      · rw [if_neg h1]; rfl
    have hk2ds : noDS k2 := by
      rw [hk2_def, ensureLead]
      by_cases h1 : (collapseSlashes p.data).head? = some '/'
      · rw [if_pos h1]; exact hk1ds
      · rw [if_neg h1]
        exact ⟨fun hcon => h1 hcon.2, hk1ds⟩
    have hk2segs : segsOf k2 = segsOf p.data := by
      rw [hk2_def, ensureLead]
      by_cases h1 : (collapseSlashes p.data).head? = some '/'
      · rw [if_pos h1]; exact hk1segs
      · rw [if_neg h1, segsOf_cons_slash]; exact hk1segs
    have hk2ne : k2 ≠ [] := by
      intro h0
      rw [h0] at hk2h
      simp at hk2h
    -- properties after the trailing-slash strip
    rw [hnp, stripTrail]
    by_cases h2 : 1 < k2.length ∧ k2.getLast? = some '/'
    · rw [if_pos h2]
      have hk2dec : k2.dropLast ++ ['/'] = k2 := by
        have := List.dropLast_append_getLast hk2ne
        rwa [show k2.getLast hk2ne = '/' from by
          have := List.getLast?_eq_getLast k2 hk2ne
          rw [this] at h2
          exact (Option.some.injEq _ _ ▸ h2.2.symm).symm] at this
      have hk3segs : segsOf k2.dropLast = segsOf p.data := by
        have h'' : segsOf k2 = segsOf k2.dropLast := by
          conv_lhs => rw [← hk2dec]
          rw [show k2.dropLast ++ ['/'] = k2.dropLast ++ '/' :: [] from rfl,
              segsOf_append, segsOf_nil, List.append_nil]
        rw [← h'', hk2segs]
      have hk3ds : noDS k2.dropLast := noDS_append_left (hk2dec ▸ hk2ds)
      have hk3h : k2.dropLast.head? = some '/' := by
        rcases hk : k2 with _ | ⟨c, t⟩
        · exact absurd hk hk2ne
        · have hc : c = '/' := by
            rw [hk] at hk2h
            simpa using hk2h
          subst hc
          rcases htk : t with _ | ⟨y, t'⟩
          · rw [hk, htk] at h2
            simp at h2
          · rw [← htk]
            have : t ≠ [] := by rw [htk]; simp
            rw [List.dropLast_cons_of_ne_nil this]
            rfl
      have hk3l : k2.dropLast.getLast? ≠ some '/' := by
        intro hcon
        have hk3ne : k2.dropLast ≠ [] := by
          intro h0
          rw [h0] at hk3h
          simp at hk3h
        have hdec2 : k2.dropLast.dropLast ++ ['/'] = k2.dropLast := by
          have := List.dropLast_append_getLast hk3ne
          rwa [show k2.dropLast.getLast hk3ne = '/' from by
            have := List.getLast?_eq_getLast k2.dropLast hk3ne
            rw [this] at hcon
            exact (Option.some.injEq _ _ ▸ hcon).symm ▸ rfl] at this
        have : noDS (k2.dropLast.dropLast ++ ['/', '/']) := by
          rw [show k2.dropLast.dropLast ++ ['/', '/'] =
              (k2.dropLast.dropLast ++ ['/']) ++ ['/'] from by simp, hdec2, hk2dec]
          exact hk2ds
        have := noDS_append_right this
        exact this.1 ⟨rfl, rfl⟩
      have := canon_of_norm_shape k2.dropLast hk3ds hk3h (Or.inl hk3l)
      rw [← hk3segs]
      exact this
    · rw [if_neg h2]
      rcases hk : k2 with _ | ⟨c, t⟩
      · exact absurd hk hk2ne
      · have hc : c = '/' := by
          rw [hk] at hk2h
          simpa using hk2h
        subst hc
        rw [← hk]
        refine (canon_of_norm_shape k2 hk2ds hk2h ?_).trans (by rw [hk2segs])
        by_cases hlast : k2.getLast? = some '/'
        · right
          have hlen : ¬1 < k2.length := fun hlt => h2 ⟨hlt, hlast⟩
          rw [hk] at hlen ⊢
          rcases t with _ | ⟨y, t'⟩
          · rfl
          · simp at hlen
        · exact Or.inl hlast

theorem segsOf_normalizePath (p : String) :
    segsOf (normalizePath p).data = segsOf p.data := by
  rw [normalizePath_data, segsOf_cons_slash]
  exact segsOf_joinSegs (fun s hs => segsOf_valid hs)

theorem joinSegs_eq_nil_iff {ps : List (List Char)}
    (hv : ∀ s ∈ ps, s ≠ [] ∧ '/' ∉ s) : joinSegs ps = [] ↔ ps = [] := by
  constructor
  · intro h
    rcases ps with _ | ⟨s, rest⟩
    · rfl
    · exfalso
      rcases rest with _ | ⟨s2, rest2⟩
      · exact (hv s (by simp)).1 h
      · have : joinSegs (s :: s2 :: rest2) = s ++ '/' :: joinSegs (s2 :: rest2) := rfl
        rw [this] at h
        rcases s with _ | ⟨c, cs⟩
        · exact (hv [] (by simp)).1 rfl
        · simp at h
  · intro h
    rw [h]
    rfl

theorem normalizePath_eq_root_iff (p : String) :
    normalizePath p = "/" ↔ segsOf p.data = [] := by
  constructor
  · intro h
    have := normalizePath_data p
    rw [h] at this
    have h2 : joinSegs (segsOf p.data) = [] := by
      have : ('/' : Char) :: joinSegs (segsOf p.data) = ['/'] := this.symm
      injection this
    exact (joinSegs_eq_nil_iff (fun s hs => segsOf_valid hs)).mp h2
  · intro h
    apply strData_inj
    rw [normalizePath_data, h]
    rfl

theorem normalizePath_idem (p : String) :
    normalizePath (normalizePath p) = normalizePath p := by
  apply strData_inj
  rw [normalizePath_data (normalizePath p)]
  rw [segsOf_normalizePath, ← normalizePath_data]

theorem dirname_data (p : String) :
    (dirname p).data = '/' :: joinSegs ((segsOf p.data).dropLast) := by
  rw [dirname]
  by_cases h : normalizePath p = "/"
  · rw [if_pos h]
    rw [(normalizePath_eq_root_iff p).mp h]
    rfl
  · rw [if_neg h, segsOf_normalizePath]

theorem dirname_normalized (p : String) :
    normalizePath (dirname p) = dirname p := by
  apply strData_inj
  rw [normalizePath_data, dirname_data, segsOf_cons_slash]
  have hv : ∀ s ∈ (segsOf p.data).dropLast, s ≠ [] ∧ '/' ∉ s :=
    fun s hs => segsOf_valid (List.dropLast_subset _ hs)
  rw [segsOf_joinSegs hv]

theorem joinSegs_concat (ps : List (List Char)) (s : List Char) :
    joinSegs (ps ++ [s]) = if ps = [] then s else joinSegs ps ++ '/' :: s := by
  induction ps with
  | nil => rfl
  | cons x rest ih =>
    rw [if_neg (by simp)]
    rcases rest with _ | ⟨y, rest2⟩
    · rfl
    · have h1 : joinSegs ((x :: y :: rest2) ++ [s]) =
          x ++ '/' :: joinSegs ((y :: rest2) ++ [s]) := rfl
      rw [h1, ih, if_neg (by simp)]
      show x ++ '/' :: (joinSegs (y :: rest2) ++ '/' :: s) =
        (x ++ '/' :: joinSegs (y :: rest2)) ++ '/' :: s
      simp

theorem strLength_data (p : String) : p.length = p.data.length := rfl

theorem dirname_length_lt (p : String) (h : normalizePath p ≠ "/") :
    (dirname p).length < (normalizePath p).length := by
  rw [strLength_data, strLength_data, dirname_data, normalizePath_data]
  simp only [List.length_cons, Nat.succ_lt_succ_iff]
  have hne : segsOf p.data ≠ [] := fun h0 => h ((normalizePath_eq_root_iff p).mpr h0)
  obtain ⟨ps, s, hps⟩ : ∃ ps s, segsOf p.data = ps ++ [s] := by
    rcases List.eq_nil_or_concat (segsOf p.data) with h0 | ⟨ps, s, h0⟩
    · exact absurd h0 hne
    · exact ⟨ps, s, by rw [h0, List.concat_eq_append]⟩
  have hs : s ≠ [] ∧ '/' ∉ s := segsOf_valid (by rw [hps]; simp)
  rw [hps, joinSegs_concat, List.dropLast_concat]
  by_cases hps0 : ps = []
  · rw [if_pos hps0, hps0]
    simp only [joinSegs, List.length_nil]
    have := List.length_pos.mpr hs.1
    omega
  · rw [if_neg hps0]
    simp only [List.length_append, List.length_cons]
    omega

theorem mem_of_getLast?_eq {α : Type} {l : List α} {a : α}
    (h : l.getLast? = some a) : a ∈ l := by
  have hne : l ≠ [] := by intro h0; rw [h0] at h; simp at h
  have heq := List.getLast?_eq_getLast l hne
  rw [heq] at h
  have h2 : l.getLast hne = a := by injection h
  rw [← h2]
  exact List.getLast_mem hne

theorem basename_data {p : String} {s : List Char}
    (h : (segsOf p.data).getLast? = some s) : basename p = String.mk s := by
  have hmem : s ∈ segsOf p.data := mem_of_getLast?_eq h
  have hs := segsOf_valid hmem
  have hne : segsOf p.data ≠ [] := by intro h0; rw [h0] at h; simp at h
  have hroot : normalizePath p ≠ "/" := fun hr => hne ((normalizePath_eq_root_iff p).mp hr)
  show (if normalizePath p = "/" then "/"
    else
      match (segsOf (normalizePath p).data).getLast? with
      | some seg => if seg = [] then "/" else String.mk seg
      | none => "/") = String.mk s
  rw [if_neg hroot, segsOf_normalizePath, h]
  exact if_neg hs.1

theorem segsOf_join_data {p b : String} (hb1 : b.data ≠ []) (hb2 : '/' ∉ b.data) :
    segsOf (join p b).data = segsOf p.data ++ [b.data] := by
  rw [join]
  by_cases hpp : normalizePath p = "/"
  · rw [if_pos hpp, segsOf_normalizePath,
        show ("/" ++ b).data = '/' :: b.data from by rw [String.data_append]; rfl,
        segsOf_cons_slash, segsOf_of_noslash hb1 hb2,
        (normalizePath_eq_root_iff p).mp hpp]
    rfl
  · rw [if_neg hpp, segsOf_normalizePath,
        show (normalizePath p ++ "/" ++ b).data =
          (normalizePath p).data ++ '/' :: b.data from by
          rw [String.data_append, String.data_append]
          simp,
        segsOf_append, segsOf_normalizePath, segsOf_of_noslash hb1 hb2]

theorem basename_join {p b : String} (hb1 : b.data ≠ []) (hb2 : '/' ∉ b.data) :
    basename (join p b) = b := by
  have h := basename_data (p := join p b) (s := b.data)
    (by rw [segsOf_join_data hb1 hb2]; exact List.getLast?_concat _)
  rw [h]

theorem dirname_join {p b : String} (hb1 : b.data ≠ []) (hb2 : '/' ∉ b.data) :
    dirname (join p b) = normalizePath p := by
  apply strData_inj
  rw [dirname_data, segsOf_join_data hb1 hb2, List.dropLast_concat, normalizePath_data]

theorem join_normalized (p b : String) : normalizePath (join p b) = join p b := by
  rw [join]
  by_cases hpp : normalizePath p = "/"
  · rw [if_pos hpp, normalizePath_idem]
  · rw [if_neg hpp, normalizePath_idem]

/-! ## The tree model and builder -/

inductive NodeType where
  | group : NodeType
  | array : NodeType
  deriving DecidableEq

/-- A tree node, after the Node shape documented in app.js: canonical path,
kind, attributes object, raw array spec (for arrays), and the list of child
base names. -/
structure Node where
  path : String
  type : NodeType
  attrs : JVal
  zarray : Option JVal
  children : List String
  deriving DecidableEq

/-- The path-indexed node map of the tree; a JS Map preserving insertion
order. -/
def PathMap : Type := List (String × Node)

instance : DecidableEq PathMap :=
  inferInstanceAs (DecidableEq (List (String × Node)))

def mget (m : PathMap) (k : String) : Option Node :=
  match m with
  | [] => none
  | (k', v) :: rest => if k' = k then some v else mget rest k

def mset (m : PathMap) (k : String) (v : Node) : PathMap :=
  match m with
  | [] => [(k, v)]
  | (k', v') :: rest => if k' = k then (k', v) :: rest else (k', v') :: mset rest k v

def mkeys (m : PathMap) : List String :=
  m.map (·.1)

/-- app.js ensureNode: look the normalized path up, and if absent create a
default empty Group there. Returns the updated map and the resident node. -/
def ensureNode (m : PathMap) (path : String) : PathMap × Node :=
  let np := normalizePath path
  match mget m np with
  | some node => (m, node)
  | none =>
    let node : Node := { path := np, type := .group, attrs := .jobj [], zarray := none, children := [] }
    (mset m np node, node)

/-- Drop one of the three seven-character manifest suffixes from a key (the
regex replace in buildTree). -/
def stripZSuffix (s : String) : String :=
  String.mk (s.data.take (s.data.length - 7))

/-- Whether a manifest key carries one of the three recognized suffixes. -/
def recognizedKey (key : String) : Bool :=
  strEndsWith key ".zgroup" || strEndsWith key ".zarray" || strEndsWith key ".zattrs"

/-- The four suffix-conditional assignments of the buildTree entry loop,
applied to the resident node exactly in source order (kind from the group or
array marker, attrs and zarray payloads defaulting to an empty object when
falsy). -/
def applySuffixFields (key : String) (value : JVal) (node : Node) : Node :=
  let node := if strEndsWith key ".zgroup" then { node with type := .group } else node
  let node := if strEndsWith key ".zarray" then { node with type := .array } else node
  let node := if strEndsWith key ".zattrs" then
      { node with attrs := if jsTruthy value then value else .jobj [] } else node
  let node := if strEndsWith key ".zarray" then
      { node with zarray := some (if jsTruthy value then value else .jobj []) } else node
  node

/-- One iteration of the entry loop of app.js buildTree: skip unrecognized
keys; otherwise resolve the owning path, ensure a node, and apply the
suffix-specific assignments. -/
def applyMetaEntry (m : PathMap) (entry : String × JVal) : PathMap :=
  let key := entry.1
  let value := entry.2
  if ¬(recognizedKey key) then m
  else
    let path := normalizePath ("/" ++ stripZSuffix key)
    let em := ensureNode m path
    mset em.1 path (applySuffixFields key value em.2)

theorem applySuffixFields_path (key : String) (value : JVal) (node : Node) :
    (applySuffixFields key value node).path = node.path := by
  by_cases h1 : strEndsWith key ".zgroup" <;>
    by_cases h2 : strEndsWith key ".zarray" <;>
      by_cases h3 : strEndsWith key ".zattrs" <;>
        simp [applySuffixFields, h1, h2, h3]

theorem applySuffixFields_children (key : String) (value : JVal) (node : Node) :
    (applySuffixFields key value node).children = node.children := by
  by_cases h1 : strEndsWith key ".zgroup" <;>
    by_cases h2 : strEndsWith key ".zarray" <;>
      by_cases h3 : strEndsWith key ".zattrs" <;>
        simp [applySuffixFields, h1, h2, h3]

/-- The body of the parent-registration loop of buildTree for one non-root key
p: ensure the parent node exists and push p's base name onto the parent's
children when absent. Returns the updated map together with the list of keys
newly inserted by ensureNode (which the enclosing iteration must still
visit). -/
def parentStep (m : PathMap) (p : String) : PathMap × List String :=
  let parent := dirname p
  let base := basename p
  let isNew := (mget m (normalizePath parent)).isNone
  let em := ensureNode m parent
  let parentNode := em.2
  let m2 := if parentNode.children.contains base then em.1
    else mset em.1 parentNode.path { parentNode with children := parentNode.children ++ [base] }
  (m2, if isNew then [parent] else [])

/-- The parent-registration loop of buildTree. JS iterates pathMap.keys(),
and a JS Map iterator visits keys inserted during the iteration; this is a
worklist that appends each freshly created parent. The fuel argument only
bounds the recursion and is chosen large enough by buildTree. -/
def parentLoop : Nat → List String → PathMap → PathMap
  | 0, _, m => m
  | _ + 1, [], m => m
  | fuel + 1, p :: rest, m =>
    if p = "/" then parentLoop fuel rest m
    else
      let st := parentStep m p
      parentLoop fuel (rest ++ st.2) st.1

/-- Lexicographic codepoint comparison of character lists (the model of a
non-positive localeCompare result). -/
def charListLe : List Char → List Char → Bool
  | [], _ => true
  | _ :: _, [] => false
  | a :: as, b :: bs => if a = b then charListLe as bs else decide (a < b)

/-- The sort comparator of buildTree: a.localeCompare(b) ordered ascending,
modelled as codepoint order. -/
def localeLe (a b : String) : Bool :=
  charListLe a.data b.data

/-- Sorting every node's children (Array.prototype.sort with the localeCompare
comparator). -/
def sortNodeChildren (m : PathMap) : PathMap :=
  m.map (fun kv =>
    (kv.1, { kv.2 with children := List.insertionSort (fun a b => localeLe a b = true) kv.2.children }))

theorem charListLe_iff (x y : List Char) : charListLe x y = true ↔ x ≤ y := by
  have main : ∀ x y : List Char, charListLe x y = true ↔ x < y ∨ x = y := by
    intro x
    induction x with
    | nil =>
      intro y
      rcases y with _ | ⟨b, bs⟩
      · simp [charListLe]
      · simp only [charListLe, true_iff]
        exact Or.inl (List.nil_lt_cons b bs)
    | cons a as ih =>
      intro y
      rcases y with _ | ⟨b, bs⟩
      · constructor
        · intro h
          cases h
        · intro hcon
          rcases hcon with hlt | heq
          · exact (List.Lex.not_nil_right _ _ hlt).elim
          · cases heq
      · have hEq : charListLe (a :: as) (b :: bs) =
            if a = b then charListLe as bs else decide (a < b) := rfl
        by_cases hab : a = b
        · subst hab
          rw [hEq, if_pos rfl, ih bs]
          constructor
          · rintro (hlt | heq)
            · exact Or.inl (List.Lex.cons hlt)
            · rw [heq]
              exact Or.inr rfl
          · rintro (hlt | heq)
            · cases hlt with
              | cons h => exact Or.inl h
              | rel h => exact absurd h (lt_irrefl a)
            · injection heq with h1 h2
              exact Or.inr h2
        · rw [hEq, if_neg hab, decide_eq_true_eq]
          constructor
          · intro hlt
            exact Or.inl (List.Lex.rel hlt)
          · rintro (hlt | heq)
            · cases hlt with
              | cons h => exact absurd rfl hab
              | rel h => exact h
            · injection heq with h1 h2
              exact absurd h1 hab
  rw [main x y, ← le_iff_lt_or_eq]

theorem localeLe_iff (a b : String) : localeLe a b = true ↔ a ≤ b := by
  rw [localeLe, charListLe_iff]
  exact (String.le_iff_toList_le).symm

/-- app.js buildTree: ensure a root Group, apply every manifest entry, then
register every node into its parent's children (synthesizing missing parents
transitively) and sort all children lists. -/
def buildTree (meta : List (String × JVal)) : PathMap :=
  let er := ensureNode [] "/"
  let m0 := mset er.1 "/" { er.2 with type := .group }
  let m1 := meta.foldl applyMetaEntry m0
  let queue := mkeys m1
  let fuel := (queue.map String.length).sum + queue.length + 1
  sortNodeChildren (parentLoop fuel queue m1)

example :
    (mget (buildTree [("a/b/c/.zarray", .jobj [("shape", .jarr [.jnum 4])])]) "/a").map
      Node.children = some ["b"] := by decide

example :
    (mget (buildTree [("a/b/c/.zarray", .jobj [("shape", .jarr [.jnum 4])])]) "/").map
      Node.children = some ["a"] := by decide

example :
    (mget (buildTree [("a/b/c/.zarray", .jobj [("shape", .jarr [.jnum 4])])]) "/a/b/c").map
      Node.type = some .array := by decide

/-! ## Map lemmas and the parent-loop invariant -/

theorem mget_mset_self (m : PathMap) (k : String) (v : Node) :
    mget (mset m k v) k = some v := by
  induction m with
  | nil => simp [mset, mget]
  | cons kv rest ih =>
    rcases kv with ⟨k', v'⟩
    by_cases h : k' = k
    · simp [mset, mget, h]
    · simp [mset, mget, h, ih]

theorem mget_mset_ne (m : PathMap) (k k' : String) (v : Node) (h : k ≠ k') :
    mget (mset m k v) k' = mget m k' := by
  induction m with
  | nil => simp [mset, mget, h]
  | cons kv rest ih =>
    rcases kv with ⟨k0, v0⟩
    by_cases h0 : k0 = k
    · subst h0
      simp [mset, mget, h]
    · simp only [mset, if_neg h0, mget]
      by_cases h1 : k0 = k'
      · simp [h1]
      · simp [h1, ih]

theorem mget_isSome_of_mem_mkeys {m : PathMap} {p : String}
    (h : p ∈ mkeys m) : (mget m p).isSome := by
  induction m with
  | nil => simp [mkeys] at h
  | cons kv rest ih =>
    rcases kv with ⟨k0, v0⟩
    simp only [mkeys, List.map_cons, List.mem_cons] at h
    by_cases h0 : k0 = p
    · simp [mget, h0]
    · simp only [mget, if_neg h0]
      rcases h with h | h
      · exact absurd h.symm h0
      · exact ih h

theorem mem_mkeys_of_mget_some {m : PathMap} {p : String} {n : Node}
    (h : mget m p = some n) : p ∈ mkeys m := by
  induction m with
  | nil => simp [mget] at h
  | cons kv rest ih =>
    rcases kv with ⟨k0, v0⟩
    simp only [mget] at h
    by_cases h0 : k0 = p
    · simp [mkeys, h0]
    · rw [if_neg h0] at h
      simp only [mkeys, List.map_cons, List.mem_cons]
      exact Or.inr (ih h)

theorem mget_sortNodeChildren (m : PathMap) (k : String) :
    mget (sortNodeChildren m) k =
      (mget m k).map (fun n =>
        { n with children := List.insertionSort (fun a b => localeLe a b = true) n.children }) := by
  induction m with
  | nil => rfl
  | cons kv rest ih =>
    rcases kv with ⟨k0, v0⟩
    by_cases h0 : k0 = k
    · simp [sortNodeChildren, mget, h0]
    · simp only [sortNodeChildren, List.map_cons, mget, if_neg h0]
      exact ih

/-- Every key of the map is a normalized path and its node records the key as
its own path. -/
def KeysOk (m : PathMap) : Prop :=
  ∀ k n, mget m k = some n → normalizePath k = k ∧ n.path = k

/-- Every entry of a children list is witnessed by a key of the map whose
parent is that node and whose base name is the entry. -/
def ChildrenJustified (m : PathMap) : Prop :=
  ∀ k n, mget m k = some n → ∀ b ∈ n.children,
    ∃ q nq, mget m q = some nq ∧ q ≠ "/" ∧ dirname q = k ∧ basename q = b

/-- Every children list is duplicate-free. -/
def ChildrenNodup (m : PathMap) : Prop :=
  ∀ k n, mget m k = some n → n.children.Nodup

/-- The parent link of key k has been registered: the parent node exists and
holds k's base name among its children. -/
def ParentDone (m : PathMap) (k : String) : Prop :=
  ∃ pn, mget m (dirname k) = some pn ∧ basename k ∈ pn.children

theorem contains_iff_mem (l : List String) (a : String) :
    l.contains a = true ↔ a ∈ l := by
  induction l with
  | nil => simp
  | cons x rest ih => simp [List.contains_cons, ih]

theorem self_ne_dirname {p : String} (hnorm : normalizePath p = p) (hp : p ≠ "/") :
    p ≠ dirname p := by
  intro heq
  have hlt := dirname_length_lt p (by rw [hnorm]; exact hp)
  rw [← heq, hnorm] at hlt
  exact lt_irrefl _ hlt

theorem parentStep_spec (m : PathMap) (p : String) (hok : KeysOk m) :
    (∀ k, k ≠ dirname p → mget (parentStep m p).1 k = mget m k) ∧
    (∃ pn', mget (parentStep m p).1 (dirname p) = some pn' ∧
      pn'.path = dirname p ∧
      basename p ∈ pn'.children ∧
      (∀ b ∈ pn'.children, b = basename p ∨
        ∃ pn, mget m (dirname p) = some pn ∧ b ∈ pn.children) ∧
      (∀ pn, mget m (dirname p) = some pn → ∀ b ∈ pn.children, b ∈ pn'.children) ∧
      ((∀ pn, mget m (dirname p) = some pn → pn.children.Nodup) → pn'.children.Nodup)) ∧
    ((parentStep m p).2 = if (mget m (dirname p)).isNone then [dirname p] else []) := by
  have hdn : normalizePath (dirname p) = dirname p := dirname_normalized p
  rcases hmp : mget m (dirname p) with _ | pn
  · -- the parent is missing: ensureNode inserts a fresh empty group
    have hE : ensureNode m (dirname p) =
        (mset m (dirname p)
          { path := dirname p, type := .group, attrs := .jobj [], zarray := none, children := [] },
         { path := dirname p, type := .group, attrs := .jobj [], zarray := none, children := [] }) := by
      rw [ensureNode]
      simp only [hdn, hmp]
    have hstep1 : (parentStep m p).1 =
        mset (mset m (dirname p)
          { path := dirname p, type := .group, attrs := .jobj [], zarray := none, children := [] })
          (dirname p)
          { path := dirname p, type := .group, attrs := .jobj [], zarray := none,
            children := [basename p] } := by
      rw [parentStep]
      simp only [hdn, hE, hmp, List.contains_nil]
      rfl
    have hstep2 : (parentStep m p).2 = [dirname p] := by
      rw [parentStep]
      simp only [hdn, hE, hmp]
      rfl
    refine ⟨?_,
      ⟨{ path := dirname p, type := .group, attrs := .jobj [], zarray := none,
         children := [basename p] }, ?_, rfl, ?_, ?_, ?_, ?_⟩, ?_⟩
    · intro k hk
      rw [hstep1, mget_mset_ne _ _ _ _ (fun h => hk h.symm),
          mget_mset_ne _ _ _ _ (fun h => hk h.symm)]
    · rw [hstep1, mget_mset_self]
    · simp
    · intro b hb
      simp only [List.mem_singleton] at hb
      exact Or.inl hb
    · intro pn hpn
      simp at hpn
    · intro _
      simp
    · rw [hstep2]
      rfl
  · -- the parent already exists
    have hE : ensureNode m (dirname p) = (m, pn) := by
      rw [ensureNode]
      simp only [hdn, hmp]
    by_cases hct : pn.children.contains (basename p)
    · have hstep1 : (parentStep m p).1 = m := by
        rw [parentStep]
        simp only [hdn, hE, hmp, hct]
        rfl
      have hstep2 : (parentStep m p).2 = [] := by
        rw [parentStep]
        simp only [hdn, hE, hmp]
        rfl
      refine ⟨?_, ⟨pn, ?_, (hok _ _ hmp).2, ?_, ?_, ?_, ?_⟩, ?_⟩
      · intro k _
        rw [hstep1]
      · rw [hstep1]
        exact hmp
      · exact (contains_iff_mem _ _).mp hct
      · intro b hb
        exact Or.inr ⟨pn, rfl, hb⟩
      · intro pn0 hpn0 b hb
        have h0 : pn = pn0 := by injection hpn0
        rw [h0]
        exact hb
      · intro hnd
        exact hnd pn rfl
      · rw [hstep2]
        rfl
    · have hpath : pn.path = dirname p := (hok _ _ hmp).2
      have hstep1 : (parentStep m p).1 =
          mset m (dirname p) { pn with children := pn.children ++ [basename p] } := by
        rw [parentStep]
        simp only [hdn, hE, hmp, hct, if_false, hpath]
        simp
      have hstep2 : (parentStep m p).2 = [] := by
        rw [parentStep]
        simp only [hdn, hE, hmp]
        rfl
      refine ⟨?_, ⟨{ pn with children := pn.children ++ [basename p] }, ?_, ?_, ?_, ?_, ?_, ?_⟩, ?_⟩
      · intro k hk
        rw [hstep1, mget_mset_ne _ _ _ _ (fun h => hk h.symm)]
      · rw [hstep1, mget_mset_self]
      · exact hpath
      · simp
      · intro b hb
        simp only [List.mem_append, List.mem_singleton] at hb
        rcases hb with hb | hb
        · exact Or.inr ⟨pn, rfl, hb⟩
        · exact Or.inl hb
      · intro pn0 hpn0 b hb
        have h0 : pn = pn0 := by injection hpn0
        rw [← h0] at hb
        simp [hb]
      · intro hnd
        have h1 : pn.children.Nodup := hnd pn rfl
        have h2 : basename p ∉ pn.children := fun hm => hct ((contains_iff_mem _ _).mpr hm)
        simp [List.nodup_append, h1, h2]
      · rw [hstep2]
        rfl

theorem step_measure {p : String} (hp : p ≠ "/") (hnorm : normalizePath p = p) :
    (dirname p).length + 1 ≤ p.length := by
  have := dirname_length_lt p (by rw [hnorm]; exact hp)
  rw [hnorm] at this
  omega

theorem parentLoop_master :
    ∀ (fuel : Nat) (queue : List String) (m : PathMap),
      (queue.map String.length).sum + queue.length < fuel →
      (∀ p ∈ queue, (mget m p).isSome ∧ normalizePath p = p) →
      KeysOk m → ChildrenJustified m → ChildrenNodup m →
      (∀ k n, mget m k = some n → k ≠ "/" → k ∈ queue ∨ ParentDone m k) →
      KeysOk (parentLoop fuel queue m) ∧
      ChildrenJustified (parentLoop fuel queue m) ∧
      ChildrenNodup (parentLoop fuel queue m) ∧
      (∀ k, (mget m k).isSome → (mget (parentLoop fuel queue m) k).isSome) ∧
      (∀ k n, mget (parentLoop fuel queue m) k = some n → k ≠ "/" →
        ParentDone (parentLoop fuel queue m) k) := by
  intro fuel
  induction fuel with
  | zero =>
    intro queue m hfuel _ _ _ _ _
    omega
  | succ fuel ih =>
    intro queue m hfuel hq hok hj hnd hpend
    rcases queue with _ | ⟨p, rest⟩
    · refine ⟨hok, hj, hnd, fun k hk => hk, ?_⟩
      intro k n hkn hk
      rcases hpend k n hkn hk with h | h
      · simp at h
      · exact h
    · by_cases hp : p = "/"
      · have hred : parentLoop (fuel + 1) (p :: rest) m = parentLoop fuel rest m := by
          rw [parentLoop, if_pos hp]
        rw [hred]
        have hfuel' : (rest.map String.length).sum + rest.length < fuel := by
          have hlp : p.length = 1 := by rw [hp]; rfl
          simp only [List.map_cons, List.sum_cons, List.length_cons] at hfuel
          omega
        have := ih rest m hfuel' (fun x hx => hq x (List.mem_cons_of_mem _ hx)) hok hj hnd
          (fun k n hkn hk => by
            rcases hpend k n hkn hk with h | h
            · rcases List.mem_cons.mp h with h | h
              · exact absurd (h.trans hp) hk
              · exact Or.inl h
            · exact Or.inr h)
        exact this
      · have hred : parentLoop (fuel + 1) (p :: rest) m =
            parentLoop fuel (rest ++ (parentStep m p).2) (parentStep m p).1 := by
          rw [parentLoop, if_neg hp]
        rw [hred]
        obtain ⟨hpsome, hpnorm⟩ := hq p (List.mem_cons_self _ _)
        obtain ⟨hNe, ⟨pn', hPg, hPpath, hPbase, hPold, hPmono, hPnd⟩, hEnq⟩ :=
          parentStep_spec m p hok
        have hPne : p ≠ dirname p := self_ne_dirname hpnorm hp
        have hpers : ∀ k, (mget m k).isSome → (mget (parentStep m p).1 k).isSome := by
          intro k hk
          by_cases hkd : k = dirname p
          · rw [hkd, hPg]; rfl
          · rw [hNe k hkd]; exact hk
        have hdones : ∀ k, ParentDone m k → ParentDone (parentStep m p).1 k := by
          rintro k ⟨pn0, h1, h2⟩
          by_cases hkd : dirname k = dirname p
          · exact ⟨pn', by rw [hkd]; exact hPg,
              hPmono pn0 (by rw [← hkd]; exact h1) _ h2⟩
          · exact ⟨pn0, by rw [hNe _ hkd]; exact h1, h2⟩
        have hpdone : ParentDone (parentStep m p).1 p := ⟨pn', hPg, hPbase⟩
        have hok1 : KeysOk (parentStep m p).1 := by
          intro k n hkn
          by_cases hkd : k = dirname p
          · subst hkd
            rw [hPg] at hkn
            injection hkn with h0
            rw [← h0]
            exact ⟨dirname_normalized p, hPpath⟩
          · rw [hNe k hkd] at hkn
            exact hok k n hkn
        have hj1 : ChildrenJustified (parentStep m p).1 := by
          intro k n hkn b hb
          by_cases hkd : k = dirname p
          · subst hkd
            rw [hPg] at hkn
            injection hkn with h0
            rw [← h0] at hb
            rcases hPold b hb with hbb | ⟨pn0, h1, h2⟩
            · obtain ⟨np, hnp⟩ := Option.isSome_iff_exists.mp hpsome
              refine ⟨p, np, ?_, hp, rfl, hbb.symm⟩
              rw [hNe p hPne]
              exact hnp
            · obtain ⟨q, nq, hq1, hq2, hq3, hq4⟩ := hj (dirname p) pn0 h1 b h2
              obtain ⟨nq', hnq'⟩ := Option.isSome_iff_exists.mp (hpers q (by rw [hq1]; rfl))
              exact ⟨q, nq', hnq', hq2, hq3, hq4⟩
          · rw [hNe k hkd] at hkn
            obtain ⟨q, nq, hq1, hq2, hq3, hq4⟩ := hj k n hkn b hb
            obtain ⟨nq', hnq'⟩ := Option.isSome_iff_exists.mp (hpers q (by rw [hq1]; rfl))
            exact ⟨q, nq', hnq', hq2, hq3, hq4⟩
        have hnd1 : ChildrenNodup (parentStep m p).1 := by
          intro k n hkn
          by_cases hkd : k = dirname p
          · subst hkd
            rw [hPg] at hkn
            injection hkn with h0
            rw [← h0]
            exact hPnd (fun pn0 h => hnd _ _ h)
          · rw [hNe k hkd] at hkn
            exact hnd k n hkn
        have hq1 : ∀ x ∈ rest ++ (parentStep m p).2,
            (mget (parentStep m p).1 x).isSome ∧ normalizePath x = x := by
          intro x hx
          rcases List.mem_append.mp hx with hx | hx
          · obtain ⟨h1, h2⟩ := hq x (List.mem_cons_of_mem _ hx)
            exact ⟨hpers x h1, h2⟩
          · rw [hEnq] at hx
            rcases hmp0 : mget m (dirname p) with _ | pn0
            · rw [hmp0] at hx
              simp at hx
              subst hx
              exact ⟨by rw [hPg]; rfl, dirname_normalized p⟩
            · rw [hmp0] at hx
              simp at hx
        have hpend1 : ∀ k n, mget (parentStep m p).1 k = some n → k ≠ "/" →
            k ∈ rest ++ (parentStep m p).2 ∨ ParentDone (parentStep m p).1 k := by
          intro k n hkn hk
          by_cases hkd : k = dirname p
          · rcases hmp0 : mget m (dirname p) with _ | pn0
            · left
              rw [List.mem_append, hEnq, hmp0]
              right
              simp [hkd]
            · -- the parent already existed, so it was pending or done in m
              rcases hpend k pn0 (by rw [hkd]; exact hmp0) hk with h | h
              · rcases List.mem_cons.mp h with h | h
                · exact absurd (h.symm.trans hkd) hPne
                · exact Or.inl (List.mem_append.mpr (Or.inl h))
              · exact Or.inr (hdones k h)
          · rw [hNe k hkd] at hkn
            rcases hpend k n hkn hk with h | h
            · rcases List.mem_cons.mp h with h | h
              · subst h
                exact Or.inr hpdone
              · exact Or.inl (List.mem_append.mpr (Or.inl h))
            · exact Or.inr (hdones k h)
        have hfuel1 : ((rest ++ (parentStep m p).2).map String.length).sum +
            (rest ++ (parentStep m p).2).length < fuel := by
          rw [hEnq]
          simp only [List.map_cons, List.sum_cons, List.length_cons] at hfuel
          have hdl := step_measure hp hpnorm
          rcases hmp0 : mget m (dirname p) with _ | pn0
          · simp only [Option.isNone_none, if_true, List.map_append, List.sum_append,
              List.length_append, List.map_cons, List.sum_cons, List.map_nil, List.sum_nil,
              List.length_cons, List.length_nil]
            omega
          · simp only [Option.isNone_some, Bool.false_eq_true, if_false, List.append_nil]
            omega
        obtain ⟨c1, c2, c3, c4, c5⟩ :=
          ih (rest ++ (parentStep m p).2) (parentStep m p).1 hfuel1 hq1 hok1 hj1 hnd1 hpend1
        exact ⟨c1, c2, c3, fun k hk => c4 k (hpers k hk), c5⟩

/-- Before the parent-registration loop no node has any children. -/
def AllChildrenNil (m : PathMap) : Prop :=
  ∀ k n, mget m k = some n → n.children = []

theorem applyMetaEntry_inv {m : PathMap} (hok : KeysOk m) (hcn : AllChildrenNil m)
    (e : String × JVal) :
    KeysOk (applyMetaEntry m e) ∧ AllChildrenNil (applyMetaEntry m e) ∧
    (∀ k, (mget m k).isSome → (mget (applyMetaEntry m e) k).isSome) := by
  rcases e with ⟨key, value⟩
  by_cases hrec : recognizedKey key
  · have hred : applyMetaEntry m (key, value) ≠ m → True := fun _ => trivial
    rw [applyMetaEntry]
    simp only [hrec, not_true, if_false]
    set path := normalizePath ("/" ++ stripZSuffix key) with hpath_def
    have hpnorm : normalizePath path = path := normalizePath_idem _
    rcases hmp : mget m path with _ | n0
    · have hE : ensureNode m path =
          (mset m path
             { path := path, type := .group, attrs := .jobj [], zarray := none, children := [] },
           { path := path, type := .group, attrs := .jobj [], zarray := none, children := [] }) := by
        rw [ensureNode]
        simp only [hpnorm, hmp]
      rw [hE]
      refine ⟨?_, ?_, ?_⟩
      · intro k n hkn
        by_cases hk : k = path
        · subst hk
          rw [mget_mset_self] at hkn
          injection hkn with h0
          refine ⟨hpnorm, ?_⟩
          rw [← h0, applySuffixFields_path]
        · rw [mget_mset_ne _ _ _ _ (fun h => hk h.symm),
              mget_mset_ne _ _ _ _ (fun h => hk h.symm)] at hkn
          exact hok k n hkn
      · intro k n hkn
        by_cases hk : k = path
        · subst hk
          rw [mget_mset_self] at hkn
          injection hkn with h0
          rw [← h0, applySuffixFields_children]
        · rw [mget_mset_ne _ _ _ _ (fun h => hk h.symm),
              mget_mset_ne _ _ _ _ (fun h => hk h.symm)] at hkn
          exact hcn k n hkn
      · intro k hk
        by_cases hk0 : k = path
        · subst hk0
          rw [mget_mset_self]
          rfl
        · rw [mget_mset_ne _ _ _ _ (fun h => hk0 h.symm),
              mget_mset_ne _ _ _ _ (fun h => hk0 h.symm)]
          exact hk
    · have hE : ensureNode m path = (m, n0) := by
        rw [ensureNode]
        simp only [hpnorm, hmp]
      rw [hE]
      have hn0 : n0.path = path := (hok _ _ hmp).2
      have hn0c : n0.children = [] := hcn _ _ hmp
      refine ⟨?_, ?_, ?_⟩
      · intro k n hkn
        by_cases hk : k = path
        · subst hk
          rw [mget_mset_self] at hkn
          injection hkn with h0
          refine ⟨hpnorm, ?_⟩
          rw [← h0, applySuffixFields_path]
          exact hn0
        · rw [mget_mset_ne _ _ _ _ (fun h => hk h.symm)] at hkn
          exact hok k n hkn
      · intro k n hkn
        by_cases hk : k = path
        · subst hk
          rw [mget_mset_self] at hkn
          injection hkn with h0
          rw [← h0, applySuffixFields_children]
          exact hn0c
        · rw [mget_mset_ne _ _ _ _ (fun h => hk h.symm)] at hkn
          exact hcn k n hkn
      · intro k hk
        by_cases hk0 : k = path
        · subst hk0
          rw [mget_mset_self]
          rfl
        · rw [mget_mset_ne _ _ _ _ (fun h => hk0 h.symm)]
          exact hk
  · rw [applyMetaEntry]
    simp only [hrec, not_false_iff, if_true]
    exact ⟨hok, hcn, fun _ hk => hk⟩

theorem foldl_applyMetaEntry_inv (meta : List (String × JVal)) :
    ∀ (m : PathMap), KeysOk m → AllChildrenNil m →
      KeysOk (meta.foldl applyMetaEntry m) ∧ AllChildrenNil (meta.foldl applyMetaEntry m) ∧
      (∀ k, (mget m k).isSome → (mget (meta.foldl applyMetaEntry m) k).isSome) := by
  induction meta with
  | nil => exact fun m hok hcn => ⟨hok, hcn, fun _ hk => hk⟩
  | cons e rest ih =>
    intro m hok hcn
    obtain ⟨h1, h2, h3⟩ := applyMetaEntry_inv hok hcn e
    obtain ⟨g1, g2, g3⟩ := ih (applyMetaEntry m e) h1 h2
    exact ⟨g1, g2, fun k hk => g3 k (h3 k hk)⟩

theorem buildTree_props (meta : List (String × JVal)) :
    (∀ k n, mget (buildTree meta) k = some n →
      List.Sorted (· ≤ ·) n.children ∧ n.children.Nodup ∧
      (∀ b, b ∈ n.children ↔ ∃ q nq, mget (buildTree meta) q = some nq ∧
        q ≠ "/" ∧ dirname q = k ∧ basename q = b)) ∧
    (∀ k n, mget (buildTree meta) k = some n → k ≠ "/" →
      (mget (buildTree meta) (dirname k)).isSome) ∧
    (mget (buildTree meta) "/").isSome := by
  have hm0eq : (mset (ensureNode ([] : PathMap) "/").1 "/"
      { (ensureNode ([] : PathMap) "/").2 with type := .group }) =
      [("/", { path := "/", type := .group, attrs := .jobj [], zarray := none,
               children := [] })] := rfl
  set rootNode : Node :=
    { path := "/", type := .group, attrs := .jobj [], zarray := none, children := [] }
    with hroot_def
  have hok0 : KeysOk [("/", rootNode)] := by
    intro k n hkn
    have hmg : mget [("/", rootNode)] k = if "/" = k then some rootNode else none := rfl
    rw [hmg] at hkn
    by_cases hk : "/" = k
    · rw [if_pos hk] at hkn
      injection hkn with h0
      subst hk
      rw [← h0]
      exact ⟨rfl, rfl⟩
    · rw [if_neg hk] at hkn
      cases hkn
  have hcn0 : AllChildrenNil [("/", rootNode)] := by
    intro k n hkn
    have hmg : mget [("/", rootNode)] k = if "/" = k then some rootNode else none := rfl
    rw [hmg] at hkn
    by_cases hk : "/" = k
    · rw [if_pos hk] at hkn
      injection hkn with h0
      rw [← h0]
    · rw [if_neg hk] at hkn
      cases hkn
  set m1 := meta.foldl applyMetaEntry [("/", rootNode)] with hm1_def
  obtain ⟨hok1, hcn1, hpers1⟩ := foldl_applyMetaEntry_inv meta [("/", rootNode)] hok0 hcn0
  have hroot1 : (mget m1 "/").isSome := hpers1 "/" (by rw [show mget [("/", rootNode)] "/" = some rootNode from rfl]; rfl)
  set queue := mkeys m1 with hqueue_def
  set fuel := (queue.map String.length).sum + queue.length + 1 with hfuel_def
  have hbt : buildTree meta = sortNodeChildren (parentLoop fuel queue m1) := by
    rw [buildTree, hm0eq]
  have hq : ∀ p ∈ queue, (mget m1 p).isSome ∧ normalizePath p = p := by
    intro p hpq
    have h1 := mget_isSome_of_mem_mkeys hpq
    obtain ⟨n, hn⟩ := Option.isSome_iff_exists.mp h1
    exact ⟨h1, (hok1 p n hn).1⟩
  have hj1 : ChildrenJustified m1 := by
    intro k n hkn b hb
    rw [hcn1 k n hkn] at hb
    cases hb
  have hnd1 : ChildrenNodup m1 := by
    intro k n hkn
    rw [hcn1 k n hkn]
    exact List.nodup_nil
  have hpend1 : ∀ k n, mget m1 k = some n → k ≠ "/" → k ∈ queue ∨ ParentDone m1 k :=
    fun k n hkn _ => Or.inl (mem_mkeys_of_mget_some hkn)
  obtain ⟨c1, c2, c3, c4, c5⟩ := parentLoop_master fuel queue m1
    (by rw [hfuel_def]; omega) hq hok1 hj1 hnd1 hpend1
  set L := parentLoop fuel queue m1 with hL_def
  have hsortInv : ∀ k n, mget (buildTree meta) k = some n →
      ∃ nL, mget L k = some nL ∧
        n = { nL with
              children := List.insertionSort (fun a b => localeLe a b = true) nL.children } := by
    intro k n hkn
    rw [hbt, mget_sortNodeChildren] at hkn
    obtain ⟨nL, h1, h2⟩ := Option.map_eq_some'.mp hkn
    exact ⟨nL, h1, h2.symm⟩
  refine ⟨?_, ?_, ?_⟩
  · intro k n hkn
    obtain ⟨nL, hL1, hL2⟩ := hsortInv k n hkn
    have hch : n.children = List.insertionSort (fun a b => localeLe a b = true) nL.children := by
      rw [hL2]
    have hperm : List.Perm (List.insertionSort (fun a b => localeLe a b = true) nL.children)
        nL.children :=
      List.perm_insertionSort _ _
    haveI hTot : IsTotal String (fun a b => localeLe a b = true) :=
      ⟨fun a b => by
        rw [localeLe_iff, localeLe_iff]
        exact le_total a b⟩
    haveI hTrans : IsTrans String (fun a b => localeLe a b = true) :=
      ⟨fun a b c h1 h2 => by
        rw [localeLe_iff] at h1 h2 ⊢
        exact le_trans h1 h2⟩
    refine ⟨?_, ?_, ?_⟩
    · rw [hch]
      exact List.Pairwise.imp (fun h => (localeLe_iff _ _).mp h)
        (List.sorted_insertionSort _ nL.children)
    · rw [hch]
      exact hperm.nodup_iff.mpr (c3 k nL hL1)
    · intro b
      rw [hch]
      constructor
      · intro hb
        have hb' : b ∈ nL.children := hperm.mem_iff.mp hb
        obtain ⟨q, nq, h1, h2, h3, h4⟩ := c2 k nL hL1 b hb'
        refine ⟨q, ⟨nq.path, nq.type, nq.attrs, nq.zarray,
          List.insertionSort (fun a b => localeLe a b = true) nq.children⟩, ?_, h2, h3, h4⟩
        rw [hbt, mget_sortNodeChildren, h1]
        rfl
      · rintro ⟨q, nq, h1, h2, h3, h4⟩
        rw [hbt, mget_sortNodeChildren] at h1
        obtain ⟨nq0, hq1, _⟩ := Option.map_eq_some'.mp h1
        obtain ⟨pn, hpn1, hpn2⟩ := c5 q nq0 hq1 h2
        rw [h3] at hpn1
        rw [hL1] at hpn1
        injection hpn1 with h0
        rw [hperm.mem_iff, ← h4]
        rw [← h0] at hpn2
        exact hpn2
  · intro k n hkn hk
    obtain ⟨nL, hL1, _⟩ := hsortInv k n hkn
    obtain ⟨pn, hpn1, _⟩ := c5 k nL hL1 hk
    rw [hbt, mget_sortNodeChildren, hpn1]
    rfl
  · have h1 : (mget L "/").isSome := c4 "/" hroot1
    obtain ⟨n0, hn0⟩ := Option.isSome_iff_exists.mp h1
    rw [hbt, mget_sortNodeChildren, hn0]
    rfl

/-! ## Viewer state, navigation and manifest validation -/

/-- The viewer state after a successful load (state in app.js); the tree is
present, activePath and highlightVarPath mutate on navigation. -/
structure ViewerState where
  baseUrl : String
  tree : PathMap
  activePath : String
  highlightVarPath : Option String

/-- app.js setActive: a Group target becomes active itself, any other target
(an Array, or a path absent from the tree) is replaced by its dirname; the
highlighted variable is the target when it is an Array. -/
def setActive (s : ViewerState) (path : String) : ViewerState :=
  let node := mget s.tree path
  let targetPath :=
    match node with
    | some n => if n.type = .group then path else dirname path
    | none => dirname path
  let highlight :=
    match node with
    | some n => if n.type = .array then some n.path else none
    | none => none
  { s with activePath := targetPath, highlightVarPath := highlight }

/-- The deep-link navigation of init and the hashchange handler in app.js:
the requested path is normalized and assigned to activePath verbatim, with no
lookup in the tree and no kind check. -/
def applyDeepLink (s : ViewerState) (path : String) : ViewerState :=
  { s with activePath := normalizePath path }

/-- The manifest validation of loadZmetadata: the fetched JSON must be truthy,
of typeof object, and carry a truthy metadata property (the negation of the
guard that throws the missing-metadata error). -/
def loadZmetadataOk (jm : JVal) : Bool :=
  jsTruthy jm && (jsTypeof jm == "object") &&
    (match jpropGet jm "metadata" with
     | some v => jsTruthy v
     | none => false)

/-! ## The dimension/coordinate inference engine of renderGroupLikeXarray -/

/-- The shape list of an array node: arr.zarray?.shape when it is an array,
else empty. -/
def getShape (arr : Node) : List JVal :=
  match arr.zarray with
  | some z =>
    match jpropGet z "shape" with
    | some (.jarr xs) => xs
    | _ => []
  | none => []

/-- Number.isFinite of a JSON value (true exactly on numbers; the model's
numbers are integers, hence always finite). -/
def isFiniteNum : JVal → Bool
  | .jnum _ => true
  | _ => false

def isJStr : JVal → Bool
  | .jstr _ => true
  | _ => false

def jstrVal : JVal → String
  | .jstr s => s
  | _ => ""

/-- app.js inferArrayDims: take the _ARRAY_DIMENSIONS attribute verbatim when
it is an array whose entries are all strings, otherwise synthesize one
positional placeholder per axis of the shape. -/
def inferArrayDims (arr : Node) : List String :=
  match jpropGet arr.attrs "_ARRAY_DIMENSIONS" with
  | some (.jarr xs) =>
    if xs.all isJStr then xs.map jstrVal
    else (List.range (getShape arr).length).map (fun i => "dim_" ++ toString i)
  | _ => (List.range (getShape arr).length).map (fun i => "dim_" ++ toString i)

/-- The arrays directly contained in a group, in children order. -/
def directArrays (tree : PathMap) (grpNode : Node) : List Node :=
  grpNode.children.filterMap (fun name =>
    match mget tree (join grpNode.path name) with
    | some n => if n.type = .array then some n else none
    | none => none)

/-- app.js collectArrays with the remaining descent depth as fuel
(maxDepth - depth): arrays of this group first, then recursively those of the
child groups. -/
def collectArraysF (tree : PathMap) : Nat → Node → List Node
  | 0, grpNode => directArrays tree grpNode
  | fuel + 1, grpNode =>
    directArrays tree grpNode ++
    (grpNode.children.map (fun name =>
      match mget tree (join grpNode.path name) with
      | some n => if n.type = .group then collectArraysF tree fuel n else []
      | none => [])).flatten

/-- app.js collectArrays(tree, grpNode, depth, maxDepth). -/
def collectArrays (tree : PathMap) (grpNode : Node) (depth maxDepth : Nat) : List Node :=
  collectArraysF tree (maxDepth - depth) grpNode

/-- The per-array dimension lists before size-based inference (the dimsByVar
map right after the first loop); positional, mirroring the identity-keyed JS
map. -/
def dims0 (arrays : List Node) : List (List String) :=
  arrays.map inferArrayDims

instance : Inhabited JVal := ⟨.jnull⟩

/-- One array's contribution to the coordinate-candidate table: a 1-D array
with a finite numeric size registers under its own base name. -/
def candStep (cands : List (String × JVal)) (arr : Node) : List (String × JVal) :=
  if ((getShape arr).length == 1) && isFiniteNum (getShape arr).headI then
    assocSet cands (basename arr.path) (getShape arr).headI
  else cands

/-- 1-D arrays registered as coordinate candidates under their own base name
(insertion-ordered, later writes updating in place like a JS Map). -/
def coordCandidates (arrays : List Node) : List (String × JVal) :=
  arrays.foldl candStep []

/-- One array's contribution to the first dim-size pass: each named axis whose
size is a finite number and whose name is not yet present. -/
def addDimSizes (shape : List JVal) (dims : List String) (acc : List (String × JVal)) :
    List (String × JVal) :=
  dims.enum.foldl (fun acc2 p =>
    match shape.get? p.1 with
    | some sz =>
      if (assocGet acc2 p.2).isNone ∧ isFiniteNum sz then assocSet acc2 p.2 sz else acc2
    | none => acc2) acc

/-- First pass of the dim-size table: every named axis of every array, first
occurrence winning. -/
def dimSizesPass1 (arrays : List Node) (dims : List (List String)) : List (String × JVal) :=
  (arrays.zip dims).foldl (fun acc pr => addDimSizes (getShape pr.1) pr.2 acc) []

/-- Second pass: an array whose single dimension name equals its own base name
is an authoritative self-named coordinate. -/
def dimSizesPass2 (arrays : List Node) (dims : List (List String))
    (acc : List (String × JVal)) : List (String × JVal) :=
  (arrays.zip dims).foldl (fun acc2 pr =>
    match pr.2, getShape pr.1 with
    | [d], sz :: _ =>
      if d = basename pr.1.path ∧ isFiniteNum sz then assocSet acc2 (basename pr.1.path) sz
      else acc2
    | _, _ => acc2) acc

/-- The completed dim-size table: both passes, then seeded from the coordinate
candidates if still empty. -/
def dimSizesAll (arrays : List Node) (dims : List (List String)) : List (String × JVal) :=
  let ds := dimSizesPass2 arrays dims (dimSizesPass1 arrays dims)
  if ds.isEmpty ∧ ¬(coordCandidates arrays).isEmpty then
    (coordCandidates arrays).foldl (fun acc pr => assocSet acc pr.1 pr.2) ds
  else ds

/-- The first table entry (in insertion order) of the given size that is not
yet used, mirroring the inner for-of with break. -/
def firstMatch (dimSizes : List (String × JVal)) (used : List String) (ax : JVal) :
    Option String :=
  match dimSizes with
  | [] => none
  | (dn, sz) :: rest =>
    if jsStrictEq sz ax ∧ dn ∉ used then some dn else firstMatch rest used ax

/-- Size-based inference over one shape: per axis, the first unused matching
table entry, else a positional placeholder; a matched empty name is falsy in
JS and therefore also replaced by the placeholder and not marked used. -/
def inferAxes (dimSizes : List (String × JVal)) (shape : List JVal) : List String :=
  (shape.foldl (fun (st : List String × List String) ax =>
    match firstMatch dimSizes st.2 ax with
    | some dn =>
      if dn = "" then (st.1 ++ ["dim_" ++ toString st.1.length], st.2)
      else (st.1 ++ [dn], st.2 ++ [dn])
    | none => (st.1 ++ ["dim_" ++ toString st.1.length], st.2)) ([], [])).1

/-- The final per-array dimension names: arrays with no names or only
placeholders are re-inferred against the dim-size table. -/
def finalDims (arrays : List Node) : List (List String) :=
  let d0 := dims0 arrays
  let ds := dimSizesAll arrays d0
  (arrays.zip d0).map (fun pr =>
    if pr.2.isEmpty || pr.2.all (fun d => strStartsWith d "dim_") then
      inferAxes ds (getShape pr.1)
    else pr.2)

/-- The record pushed for each variable during classification. -/
structure VarEntry where
  arr : Node
  name : String
  dims : List String
  shape : List JVal
  attrs : JVal
  deriving DecidableEq

/-- The isCoord test of the classification loop: 1-D with a coordinate
candidate of the array's own name, or a single dimension name equal to the
name or naming a candidate. -/
def isCoordB (cands : List (String × JVal)) (name : String) (dims : List String)
    (shape : List JVal) : Bool :=
  (shape.length == 1 && (assocGet cands name).isSome)
  || (dims.length == 1 && (dims.headI == name || (assocGet cands name).isSome))

/-- One iteration of the classification loop: push the variable record onto the
coordinates or the data variables. -/
def classStep (cands : List (String × JVal)) (acc : List VarEntry × List VarEntry)
    (pr : Node × List String) : List VarEntry × List VarEntry :=
  let arr := pr.1
  let name := basename arr.path
  let shape := getShape arr
  let entry : VarEntry :=
    ⟨arr, name, pr.2, shape, if jsTruthy arr.attrs then arr.attrs else .jobj []⟩
  if isCoordB cands name pr.2 shape then (acc.1 ++ [entry], acc.2)
  else (acc.1, acc.2 ++ [entry])

/-- The coordinate/data-variable split of renderGroupLikeXarray: an array is a
coordinate when it is 1-D and a coordinate candidate of its own name exists, or
when its single dimension name equals its base name or names a candidate. -/
def classifyVars (arrays : List Node) : List VarEntry × List VarEntry :=
  (arrays.zip (finalDims arrays)).foldl (classStep (coordCandidates arrays)) ([], [])

/-- The inference output for a group of the tree: base name and final
dimension names of every array directly in the group (the call site passes
depth = maxDepth = 0, no descent). -/
def groupFinalDims (tree : PathMap) (grpPath : String) : List (String × List String) :=
  match mget tree grpPath with
  | some grp =>
    let arrays := collectArrays tree grp 0 0
    (arrays.zip (finalDims arrays)).map (fun pr => (basename pr.1.path, pr.2))
  | none => []

/-- The classification output for a group of the tree. -/
def groupClassify (tree : PathMap) (grpPath : String) : List VarEntry × List VarEntry :=
  match mget tree grpPath with
  | some grp => classifyVars (collectArrays tree grp 0 0)
  | none => ([], [])

/-! ## The attribute aggregator of renderAggregatedGroupAttrs -/

/-- Every Group node of the tree whose path equals the root path or is nested
below it (root + separator as a string test), in map insertion order. -/
def subtreeGroupNodes (tree : PathMap) (root : String) : List Node :=
  (((mkeys tree).filter (fun p => p = root || strStartsWith p (root ++ "/"))).filterMap
    (fun p => mget tree p)).filter (fun n => n.type = .group)

/-- The attribute read (n.attrs or an empty object)[k] of the aggregator. -/
def attrGet (n : Node) (k : String) : Option JVal :=
  jpropGet (if jsTruthy n.attrs then n.attrs else .jobj []) k

/-- The per-key agreement loop over the member groups: the first group's value
is the baseline and every later group is compared to it with deepEqualSimple
(the break of the source is the short-circuit of all). Returns the agreement
flag and the baseline value. -/
def aggRowSame (groups : List Node) (k : String) : Bool × Option JVal :=
  match groups with
  | [] => (true, none)
  | g :: rest => (rest.all (fun n => deepEqualSimple (attrGet g k) (attrGet n k)), attrGet g k)

/-- The display of an agreed value: null and undefined print null, objects are
JSON-stringified, everything else is String(v). -/
def displaySame : Option JVal → String
  | none => "null"
  | some .jnull => "null"
  | some (.jbool true) => "true"
  | some (.jbool false) => "false"
  | some (.jnum n) => toString n
  | some (.jstr s) => s
  | some (.jarr xs) => stringify (.jarr xs)
  | some (.jobj kvs) => stringify (.jobj kvs)

/-- The display text the aggregator emits for one key at one group: the shared
value when all member groups of the subtree agree under deepEqualSimple, the
varies sentinel otherwise (empty when the group is missing or the subtree has
no groups, where the source renders nothing). -/
def aggRowDisplay (tree : PathMap) (grpPath : String) (k : String) : String :=
  match mget tree grpPath with
  | some grpNode =>
    let root := normalizePath grpNode.path
    let groups := subtreeGroupNodes tree root
    if groups.isEmpty then ""
    else
      let r := aggRowSame groups k
      if r.1 then displaySame r.2 else "(varies)"
  | none => ""

/-! ## The naming-spec feature of onApplyNamingSpec -/

/-- String.prototype.trim (the whitespace of interest). -/
def strTrim (s : String) : String :=
  let ws : Char → Bool := fun c => c = ' ' || c = '\t' || c = '\n' || c = '\r'
  String.mk (((s.data.dropWhile ws).reverse.dropWhile ws).reverse)

/-- Assignment into the record object of the parse loop (string values). -/
def recSet (r : List (String × String)) (k v : String) : List (String × String) :=
  match r with
  | [] => [(k, v)]
  | (k', v') :: rest => if k' = k then (k', v) :: rest else (k', v') :: recSet rest k v

/-- The tokens of one child's base name: split on the delimiter, keeping empty
tokens as String.prototype.split does. -/
def nameParts (c : Node) : List String :=
  (jsSplitCh '_' (basename c.path).data).map (fun l => String.mk l)

/-- The record object built for one child: the template keys paired with the
positional tokens, written in order. -/
def buildRecord (keys parts : List String) : List (String × String) :=
  (keys.zip parts).foldl (fun r kv => recSet r kv.1 kv.2) []

/-- The parse phase: per child group, split its base name on the delimiter
(keeping empty tokens, as String.prototype.split does), abort on any token
count mismatch, else build the positional record. -/
def parseChildren (keys : List String) : List Node → Option (List (Node × List (String × String)))
  | [] => some []
  | child :: rest =>
    if (nameParts child).length ≠ keys.length then none
    else
      (parseChildren keys rest).map (fun t => (child, buildRecord keys (nameParts child)) :: t)

/-- One assignment child.attrs[key] = value of the apply loop: a string write
into an object, the identity on any other value. -/
def applyRecordStep (a : JVal) (kv : String × String) : JVal :=
  match a with
  | .jobj kvs => JVal.jobj (assocSet kvs kv.1 (.jstr kv.2))
  | other => other

/-- Writing one parsed record into a child's attribute object (non-object
attrs are reset to an empty object first, as in the source; the manifest
attributes of interest are objects). -/
def applyRecord (attrs : JVal) (record : List (String × String)) : JVal :=
  let attrs0 := if jsTruthy attrs && jsTypeof attrs == "object" then attrs else .jobj []
  record.foldl applyRecordStep attrs0

/-- The template keys of the naming spec: split the trimmed spec text on the
delimiter and drop empty tokens. -/
def specKeys (specStr : String) : List String :=
  ((jsSplitCh '_' (strTrim specStr).data).filter (· ≠ [])).map (fun l => String.mk l)

/-- The immediate child Group nodes of a group, in children order. -/
def groupChildren (tree : PathMap) (grp : Node) : List Node :=
  (grp.children.filterMap (fun name =>
    mget tree (join grp.path name))).filter (fun n => n.type = .group)

/-- app.js onApplyNamingSpec as a pure function of the tree: returns the
(possibly) updated tree together with the status message set by the handler.
The guard on a missing state.tree is outside this model (the tree argument is
the loaded tree). -/
def onApplyNamingSpec (specStr : String) (tree : PathMap) (activePath : String) :
    PathMap × String :=
  if strTrim specStr = "" then
    (tree, "Enter a naming spec (e.g., frequency_cell-methods_zoomlevel_realm).")
  else
    let keys := specKeys specStr
    if keys.isEmpty then (tree, "Invalid naming spec.")
    else
      match mget tree activePath with
      | none => (tree, "Active node is not a group.")
      | some grp =>
        if grp.type ≠ .group then (tree, "Active node is not a group.")
        else
          let children := groupChildren tree grp
          if children.isEmpty then (tree, "No subgroup children to apply spec.")
          else
            match parseChildren keys children with
            | none => (tree, "Parsing failed: not all subgroup names match the spec.")
            | some parsed =>
              let newTree := parsed.foldl (fun t pr =>
                mset t pr.1.path { pr.1 with attrs := applyRecord pr.1.attrs pr.2 }) tree
              (newTree, "Applied naming spec to " ++ toString parsed.length ++ " subgroup(s).")

/-! ## The claims -/

def mxC8 : List (String × JVal) :=
  [("a/b/c/.zarray", .jobj [("shape", .jarr [.jnum 4])])]

/-- C8: a manifest declaring only a/b/c as an array synthesizes /a and /a/b as
Group nodes with empty attributes and the right children lists, and registers
a in the root's children: implicit parents are created transitively. -/
theorem claim8_implicit_parents :
    mget (buildTree mxC8) "/a" = some (Node.mk "/a" .group (.jobj []) none ["b"]) ∧
    mget (buildTree mxC8) "/a/b" = some (Node.mk "/a/b" .group (.jobj []) none ["c"]) ∧
    (mget (buildTree mxC8) "/").map Node.children = some ["a"] := by
  exact ⟨by decide, by decide, by decide⟩

/-- C9: for every path p and every nonempty base name b free of separators,
basename (join p b) = b and dirname (join p b) = normalizePath p. -/
theorem claim9_join_roundtrip (p b : String) (hb1 : b ≠ "") (hb2 : '/' ∉ b.data) :
    basename (join p b) = b ∧ dirname (join p b) = normalizePath p := by
  have hbd : b.data ≠ [] := by
    intro h
    apply hb1
    apply strData_inj
    rw [h]
  exact ⟨basename_join hbd hb2, dirname_join hbd hb2⟩

/-- C9 witness: the round trip at p = /a, b = b. -/
theorem claim9_join_roundtrip_witness :
    basename (join "/a" "b") = "b" ∧ dirname (join "/a" "b") = normalizePath "/a" :=
  claim9_join_roundtrip "/a" "b" (by decide) (by decide)

/-- C7: after buildTree, every node's children list is sorted, duplicate free,
and holds exactly the base names of the tree paths whose parent is that
node. -/
theorem claim7_children_exact (meta : List (String × JVal)) (k : String) (n : Node)
    (h : mget (buildTree meta) k = some n) :
    List.Sorted (· ≤ ·) n.children ∧ n.children.Nodup ∧
    (∀ b, b ∈ n.children ↔ ∃ q nq, mget (buildTree meta) q = some nq ∧
      q ≠ "/" ∧ dirname q = k ∧ basename q = b) :=
  (buildTree_props meta).1 k n h

/-- C7 witness: the children invariant at the node /a of a two-level
manifest. -/
theorem claim7_children_exact_witness :
    List.Sorted (· ≤ ·) (Node.mk "/a" .group (.jobj []) none ["b"]).children ∧
    (Node.mk "/a" .group (.jobj []) none ["b"]).children.Nodup ∧
    (∀ b, b ∈ (Node.mk "/a" .group (.jobj []) none ["b"]).children ↔
      ∃ q nq,
        mget (buildTree [("a/b/.zarray", JVal.jobj [("shape", JVal.jarr [JVal.jnum 4])])])
          q = some nq ∧ q ≠ "/" ∧ dirname q = "/a" ∧ basename q = b) :=
  claim7_children_exact _ "/a" _ (by decide)

def mxC1 : List (String × JVal) :=
  [("x/.zarray", .jobj [("shape", .jarr [.jnum 4])]),
   ("x/.zattrs", .jobj [("_ARRAY_DIMENSIONS", .jarr [.jstr "x"])]),
   ("temp/.zarray", .jobj [("shape", .jarr [.jnum 4])])]

/-- C1 counterexample: in the spec's own scenario (coordinate x, shape [4],
explicit dims; array temp, shape [4], no dims) temp resolves to the
placeholder dim_0, not to x: temp's own placeholder enters the dim-size table
before x (children iterate in sorted order, temp before x) and the first
size-4 entry wins. -/
theorem claim1_counterexample :
    groupFinalDims (buildTree mxC1) "/" = [("temp", ["dim_0"]), ("x", ["x"])] := by
  decide

def mxC1a : List (String × JVal) :=
  [("a/.zarray", .jobj [("shape", .jarr [.jnum 4])]),
   ("a/.zattrs", .jobj [("_ARRAY_DIMENSIONS", .jarr [.jstr "a"])]),
   ("temp/.zarray", .jobj [("shape", .jarr [.jnum 4])])]

/-- C1 amended: an unresolved axis picks the first unused dim-size-table entry
of matching size in table insertion order, so the coordinate's name is chosen
exactly when its entry precedes the unresolved array's own placeholder entry:
renaming the coordinate to a (iterated before temp) makes temp resolve to
a. -/
theorem claim1_size_fallback :
    groupFinalDims (buildTree mxC1a) "/" = [("a", ["a"]), ("temp", ["a"])] := by
  decide

def nC2 : Node :=
  { path := "/t", type := .array,
    attrs := .jobj [("_ARRAY_DIMENSIONS", .jarr [.jstr "x"])],
    zarray := some (.jobj [("shape", .jarr [.jnum 4, .jnum 4])]), children := [] }

/-- C2 counterexample: a rank-2 array carrying a one-element _ARRAY_DIMENSIONS
list keeps that list verbatim; the source never compares the list's length to
the shape's rank. -/
theorem claim2_counterexample :
    inferArrayDims nC2 = ["x"] ∧ (getShape nC2).length = 2 := by
  exact ⟨by decide, by decide⟩

/-- C2 amended: inferArrayDims uses an explicit all-string _ARRAY_DIMENSIONS
array verbatim whatever its length; only a missing or non-conforming
attribute falls back to per-axis placeholder names. -/
theorem claim2_dims_verbatim (arr : Node) (xs : List JVal)
    (h1 : jpropGet arr.attrs "_ARRAY_DIMENSIONS" = some (JVal.jarr xs))
    (h2 : xs.all isJStr = true) :
    inferArrayDims arr = xs.map jstrVal := by
  simp only [inferArrayDims, h1, h2, if_true]

/-- C2 witness: the amended rule at the rank-2 array nC2. -/
theorem claim2_dims_verbatim_witness :
    inferArrayDims nC2 = [JVal.jstr "x"].map jstrVal :=
  claim2_dims_verbatim nC2 [JVal.jstr "x"] (by decide) (by decide)

def mxC4 : List (String × JVal) :=
  [("a/.zarray", .jobj [("shape", .jarr [.jnum 4])])]

/-- C4 counterexample: the deep-link handler assigns normalizePath(path) to
activePath verbatim, so a deep link naming the Array /a leaves activePath on
an Array node, not a Group; and setActive on the missing target /x/y falls
back to its dirname /x — absent from the tree and not the root the claim
promises for invalid targets. -/
theorem claim4_counterexample :
    (applyDeepLink (ViewerState.mk "" (buildTree mxC4) "/" none) "/a").activePath = "/a" ∧
    (mget (buildTree mxC4) "/a").map Node.type = some NodeType.array ∧
    (setActive (ViewerState.mk "" (buildTree mxC4) "/" none) "/x/y").activePath = "/x" ∧
    mget (buildTree mxC4) "/x" = none := by
  exact ⟨by decide, by decide, by decide, by decide⟩

/-- C4 amended: setActive guarantees an existing activePath only for targets
that exist in the built tree (a Group stays, a non-Group target redirects to
its dirname, which buildTree closes over for present paths); a target absent
from the tree falls back to its dirname verbatim, with no existence
guarantee, and the deep-link assignment performs no lookup at all. -/
theorem claim4_active_in_tree (meta : List (String × JVal)) (s : ViewerState)
    (hs : s.tree = buildTree meta) (p : String) :
    (∀ n, mget s.tree p = some n →
      (mget s.tree ((setActive s p).activePath)).isSome = true) ∧
    (mget s.tree p = none → (setActive s p).activePath = dirname p) := by
  constructor
  · intro n hp
    have h1 : (setActive s p).activePath = if n.type = .group then p else dirname p := by
      simp [setActive, hp]
    rw [h1]
    by_cases ht : n.type = .group
    · rw [if_pos ht, hp]; rfl
    · rw [if_neg ht]
      by_cases hroot : p = "/"
      · subst hroot
        rw [show dirname "/" = "/" by decide, hp]
        rfl
      · rw [hs] at hp ⊢
        exact (buildTree_props meta).2.1 p n hp hroot
  · intro hp
    simp [setActive, hp]

/-- C4 witness: at the target /a/b of a concrete built tree, navigation lands
on an existing node (the parent /a); the missing-target clause holds
vacuously there. -/
theorem claim4_active_in_tree_witness :
    (∀ n, mget
        (ViewerState.mk ""
          (buildTree [("a/b/.zarray", JVal.jobj [("shape", JVal.jarr [JVal.jnum 4])])])
          "/" none).tree "/a/b" = some n →
      (mget
        (ViewerState.mk ""
          (buildTree [("a/b/.zarray", JVal.jobj [("shape", JVal.jarr [JVal.jnum 4])])])
          "/" none).tree
        ((setActive
          (ViewerState.mk ""
            (buildTree [("a/b/.zarray", JVal.jobj [("shape", JVal.jarr [JVal.jnum 4])])])
            "/" none) "/a/b").activePath)).isSome = true) ∧
    (mget
        (ViewerState.mk ""
          (buildTree [("a/b/.zarray", JVal.jobj [("shape", JVal.jarr [JVal.jnum 4])])])
          "/" none).tree "/a/b" = none →
      (setActive
        (ViewerState.mk ""
          (buildTree [("a/b/.zarray", JVal.jobj [("shape", JVal.jarr [JVal.jnum 4])])])
          "/" none) "/a/b").activePath = dirname "/a/b") :=
  claim4_active_in_tree [("a/b/.zarray", JVal.jobj [("shape", JVal.jarr [JVal.jnum 4])])]
    (ViewerState.mk ""
      (buildTree [("a/b/.zarray", JVal.jobj [("shape", JVal.jarr [JVal.jnum 4])])])
      "/" none)
    rfl "/a/b"

/-- C6 counterexample: the guard tests only the truthiness of jm.metadata, so
a document whose metadata value is the number 5 (present but not an object)
still passes validation. -/
theorem claim6_counterexample :
    loadZmetadataOk (JVal.jobj [("metadata", JVal.jnum 5)]) = true := by decide

/-- The truthiness test the metadata guard applies to the looked-up
property. -/
def metaOk (o : Option JVal) : Bool :=
  match o with
  | some v => jsTruthy v
  | none => false

theorem loadZmetadataOk_jobj (kvs : List (String × JVal)) :
    loadZmetadataOk (JVal.jobj kvs) = metaOk (assocGet kvs "metadata") := rfl

theorem metaOk_iff (o : Option JVal) :
    metaOk o = true ↔ ∃ v, o = some v ∧ jsTruthy v = true := by
  cases o with
  | none => simp [metaOk]
  | some v => simp [metaOk]

theorem loadZmetadataOk_ne_jobj :
    ∀ jm : JVal, (∀ kvs, jm ≠ JVal.jobj kvs) → loadZmetadataOk jm = false
  | .jnull, _ => rfl
  | .jbool b, _ => by cases b <;> rfl
  | .jnum n, _ => by
    simp only [loadZmetadataOk, jsTruthy, jsTypeof, jpropGet]
    simp
  | .jstr s, _ => by
    simp only [loadZmetadataOk, jsTruthy, jsTypeof, jpropGet]
    simp
  | .jarr xs, _ => rfl
  | .jobj kvs, h => absurd rfl (h kvs)

/-- C6 amended: validation succeeds exactly when the document is an object
whose metadata property is present and truthy — any truthy value passes, an
object or not (and conversely a falsy metadata value fails even though it is
present). -/
theorem claim6_validation_iff (jm : JVal) :
    loadZmetadataOk jm = true ↔
      ∃ kvs v, jm = JVal.jobj kvs ∧ assocGet kvs "metadata" = some v ∧
        jsTruthy v = true := by
  cases jm with
  | jobj kvs =>
    rw [loadZmetadataOk_jobj, metaOk_iff]
    constructor
    · rintro ⟨v, hg, hv⟩
      exact ⟨kvs, v, rfl, hg, hv⟩
    · rintro ⟨kvs2, v, hk, hg, hv⟩
      injection hk with h2
      subst h2
      exact ⟨v, hg, hv⟩
  | jnull =>
    rw [loadZmetadataOk_ne_jobj JVal.jnull (fun _ h => nomatch h)]
    constructor
    · intro h
      exact Bool.noConfusion h
    · rintro ⟨kvs2, v, hk, -, -⟩
      exact JVal.noConfusion hk
  | jbool b =>
    rw [loadZmetadataOk_ne_jobj (JVal.jbool b) (fun _ h => nomatch h)]
    constructor
    · intro h
      exact Bool.noConfusion h
    · rintro ⟨kvs2, v, hk, -, -⟩
      exact JVal.noConfusion hk
  | jnum n =>
    rw [loadZmetadataOk_ne_jobj (JVal.jnum n) (fun _ h => nomatch h)]
    constructor
    · intro h
      exact Bool.noConfusion h
    · rintro ⟨kvs2, v, hk, -, -⟩
      exact JVal.noConfusion hk
  | jstr s =>
    rw [loadZmetadataOk_ne_jobj (JVal.jstr s) (fun _ h => nomatch h)]
    constructor
    · intro h
      exact Bool.noConfusion h
    · rintro ⟨kvs2, v, hk, -, -⟩
      exact JVal.noConfusion hk
  | jarr xs =>
    rw [loadZmetadataOk_ne_jobj (JVal.jarr xs) (fun _ h => nomatch h)]
    constructor
    · intro h
      exact Bool.noConfusion h
    · rintro ⟨kvs2, v, hk, -, -⟩
      exact JVal.noConfusion hk

def mxC3 : List (String × JVal) :=
  [("parent/.zgroup", .jobj []),
   ("parent/.zattrs", .jobj [("meta", .jobj [("a", .jnum 1), ("b", .jnum 2)])]),
   ("parent/g1/.zgroup", .jobj []),
   ("parent/g1/.zattrs", .jobj [("meta", .jobj [("a", .jnum 1), ("b", .jnum 2)])]),
   ("parent/g2/.zgroup", .jobj []),
   ("parent/g2/.zattrs", .jobj [("meta", .jobj [("b", .jnum 2), ("a", .jnum 1)])])]

def mxC3b : List (String × JVal) :=
  [("parent/.zgroup", .jobj []),
   ("parent/.zattrs", .jobj [("meta", .jobj [("a", .jnum 1), ("b", .jnum 2)])]),
   ("parent/g1/.zgroup", .jobj []),
   ("parent/g1/.zattrs", .jobj [("meta", .jobj [("a", .jnum 1), ("b", .jnum 2)])]),
   ("parent/g2/.zgroup", .jobj []),
   ("parent/g2/.zattrs", .jobj [("meta", .jobj [("a", .jnum 1), ("b", .jnum 2)])])]

/-- C3 counterexample: deepEqualSimple compares objects through their
JSON.stringify text, which is key-order-sensitive, so the same key-value
pairs listed in different orders report the varies sentinel (while identical
insertion orders report the shared value). -/
theorem claim3_counterexample :
    aggRowDisplay (buildTree mxC3) "/parent" "meta" = "(varies)" ∧
    aggRowDisplay (buildTree mxC3b) "/parent" "meta" = "\x7b\"a\":1,\"b\":2\x7d" := by
  exact ⟨by decide, by decide⟩

/-- C3 amended: the aggregator reports the varies sentinel exactly when some
later member group disagrees with the first one under deepEqualSimple — an
equality that is order-sensitive for mapping keys too, since objects are
compared through their stringify text (hypothesis h3 rules out a shared value
that itself prints as the sentinel). -/
theorem claim3_varies_iff (tree : PathMap) (grpPath k : String) (gnode g : Node)
    (rest : List Node)
    (h1 : mget tree grpPath = some gnode)
    (h2 : subtreeGroupNodes tree (normalizePath gnode.path) = g :: rest)
    (h3 : displaySame (attrGet g k) ≠ "(varies)") :
    aggRowDisplay tree grpPath k = "(varies)" ↔
      ∃ n ∈ rest, deepEqualSimple (attrGet g k) (attrGet n k) = false := by
  have hunfold : aggRowDisplay tree grpPath k =
      (if rest.all (fun n => deepEqualSimple (attrGet g k) (attrGet n k)) then
        displaySame (attrGet g k) else "(varies)") := by
    simp [aggRowDisplay, h1, h2, aggRowSame]
  rw [hunfold]
  cases hall : rest.all (fun n => deepEqualSimple (attrGet g k) (attrGet n k)) with
  | true =>
    rw [if_pos rfl]
    constructor
    · intro h
      exact absurd h h3
    · rintro ⟨n, hn, hne⟩
      rw [List.all_eq_true] at hall
      have := hall n hn
      rw [hne] at this
      exact Bool.noConfusion this
  | false =>
    rw [if_neg (fun h => Bool.noConfusion h)]
    constructor
    · intro _
      by_contra hno
      push_neg at hno
      have hat : rest.all (fun n => deepEqualSimple (attrGet g k) (attrGet n k)) = true := by
        rw [List.all_eq_true]
        intro x hx
        have hx2 := hno x hx
        cases hdx : deepEqualSimple (attrGet g k) (attrGet x k)
        · exact absurd hdx hx2
        · rfl
      rw [hat] at hall
      exact Bool.noConfusion hall
    · intro _
      rfl

def gC3 : Node :=
  Node.mk "/parent" .group (.jobj [("meta", .jobj [("a", .jnum 1), ("b", .jnum 2)])])
    none ["g1", "g2"]

def g1C3 : Node :=
  Node.mk "/parent/g1" .group (.jobj [("meta", .jobj [("a", .jnum 1), ("b", .jnum 2)])])
    none []

def g2C3 : Node :=
  Node.mk "/parent/g2" .group (.jobj [("meta", .jobj [("b", .jnum 2), ("a", .jnum 1)])])
    none []

/-- C3 witness: the characterization at the concrete varies scenario. -/
theorem claim3_varies_iff_witness :
    aggRowDisplay (buildTree mxC3) "/parent" "meta" = "(varies)" ↔
      ∃ n ∈ [g1C3, g2C3], deepEqualSimple (attrGet gC3 "meta") (attrGet n "meta") = false :=
  claim3_varies_iff (buildTree mxC3) "/parent" "meta" gC3 gC3 [g1C3, g2C3]
    (by decide) (by decide) (by decide)

theorem parseChildren_eq_none (keys : List String) :
    ∀ cs : List Node, (∃ c ∈ cs, (nameParts c).length ≠ keys.length) →
      parseChildren keys cs = none := by
  intro cs
  induction cs with
  | nil =>
    rintro ⟨c, hc, -⟩
    cases hc
  | cons child rest ih =>
    rintro ⟨c, hc, hlen⟩
    rw [parseChildren]
    by_cases hchild : (nameParts child).length ≠ keys.length
    · rw [if_pos hchild]
    · rw [if_neg hchild]
      rcases List.mem_cons.mp hc with rfl | hcr
      · exact absurd hlen hchild
      · rw [ih ⟨c, hcr, hlen⟩]
        rfl

theorem parseChildren_eq_some (keys : List String) :
    ∀ cs : List Node, (∀ c ∈ cs, (nameParts c).length = keys.length) →
      parseChildren keys cs =
        some (cs.map (fun c => (c, buildRecord keys (nameParts c)))) := by
  intro cs
  induction cs with
  | nil =>
    intro _
    rfl
  | cons child rest ih =>
    intro hall
    rw [parseChildren, if_neg (fun hne => hne (hall child (List.mem_cons_self child rest))),
      ih (fun c hc => hall c (List.mem_cons_of_mem _ hc))]
    rfl

theorem recSet_append (r : List (String × String)) (k v : String)
    (h : k ∉ r.map Prod.fst) : recSet r k v = r ++ [(k, v)] := by
  induction r with
  | nil => rfl
  | cons p rest ih =>
    rw [recSet]
    rw [List.map_cons, List.mem_cons] at h
    push_neg at h
    rw [if_neg (fun he => h.1 he.symm), ih h.2]
    rfl

theorem foldl_recSet_fresh :
    ∀ (zl acc : List (String × String)), (zl.map Prod.fst).Nodup →
      (∀ p ∈ zl, p.1 ∉ acc.map Prod.fst) →
      zl.foldl (fun r kv => recSet r kv.1 kv.2) acc = acc ++ zl := by
  intro zl
  induction zl with
  | nil =>
    intro acc _ _
    simp
  | cons p rest ih =>
    intro acc hnd hdisj
    rw [List.map_cons, List.nodup_cons] at hnd
    rw [List.foldl_cons, recSet_append acc p.1 p.2 (hdisj p (List.mem_cons_self p rest)),
      ih (acc ++ [(p.1, p.2)]) hnd.2]
    · simp
    · intro q hq
      rw [List.map_append, List.mem_append]
      push_neg
      constructor
      · exact hdisj q (List.mem_cons_of_mem _ hq)
      · intro hq1
        rw [List.map_cons, List.mem_cons] at hq1
        rcases hq1 with hq1 | hq1
        · exact hnd.1 (hq1 ▸ List.mem_map_of_mem Prod.fst hq)
        · cases hq1

theorem buildRecord_eq_zip (keys parts : List String) (hnd : keys.Nodup)
    (hlen : parts.length = keys.length) :
    buildRecord keys parts = keys.zip parts := by
  have hfst : (keys.zip parts).map Prod.fst = keys :=
    List.map_fst_zip keys parts (by omega)
  rw [buildRecord, foldl_recSet_fresh (keys.zip parts) [] (by rw [hfst]; exact hnd)
    (by intro p hp h; cases h)]
  rfl

theorem assocGet_assocSet_self (kvs : List (String × JVal)) (k : String) (v : JVal) :
    assocGet (assocSet kvs k v) k = some v := by
  induction kvs with
  | nil => simp [assocSet, assocGet]
  | cons kv rest ih =>
    rcases kv with ⟨k0, v0⟩
    by_cases h0 : k0 = k
    · subst h0
      simp [assocSet, assocGet]
    · simp [assocSet, assocGet, h0, ih]

theorem assocGet_assocSet_ne (kvs : List (String × JVal)) (k k' : String) (v : JVal)
    (h : k ≠ k') : assocGet (assocSet kvs k v) k' = assocGet kvs k' := by
  induction kvs with
  | nil => simp [assocSet, assocGet, h]
  | cons kv rest ih =>
    rcases kv with ⟨k0, v0⟩
    by_cases h0 : k0 = k
    · subst h0
      simp [assocSet, assocGet, h]
    · simp only [assocSet, if_neg h0, assocGet]
      by_cases h1 : k0 = k'
      · simp [h1]
      · simp [h1, ih]

theorem assocGet_foldl_set_notmem :
    ∀ (r : List (String × String)) (kvs : List (String × JVal)) (k : String),
      k ∉ r.map Prod.fst →
      assocGet (r.foldl (fun a kv => assocSet a kv.1 (.jstr kv.2)) kvs) k =
        assocGet kvs k := by
  intro r
  induction r with
  | nil =>
    intro kvs k _
    rfl
  | cons p rest ih =>
    intro kvs k hk
    rw [List.map_cons, List.mem_cons] at hk
    push_neg at hk
    rw [List.foldl_cons, ih _ _ hk.2]
    exact assocGet_assocSet_ne _ _ _ _ (fun he => hk.1 he.symm)

theorem assocGet_foldl_set_mem :
    ∀ (r : List (String × String)) (kvs : List (String × JVal)) (p : String × String),
      p ∈ r → (r.map Prod.fst).Nodup →
      assocGet (r.foldl (fun a kv => assocSet a kv.1 (.jstr kv.2)) kvs) p.1 =
        some (.jstr p.2) := by
  intro r
  induction r with
  | nil =>
    intro kvs p hp _
    cases hp
  | cons q rest ih =>
    intro kvs p hp hnd
    rw [List.map_cons, List.nodup_cons] at hnd
    rw [List.foldl_cons]
    rcases List.mem_cons.mp hp with rfl | hmem
    · rw [assocGet_foldl_set_notmem rest _ p.1 hnd.1]
      exact assocGet_assocSet_self _ _ _
    · exact ih _ p hmem hnd.2

theorem foldl_applyRecordStep_jobj :
    ∀ (r : List (String × String)) (kvs : List (String × JVal)),
      r.foldl applyRecordStep (JVal.jobj kvs) =
        JVal.jobj (r.foldl (fun a kv => assocSet a kv.1 (.jstr kv.2)) kvs) := by
  intro r
  induction r with
  | nil =>
    intro kvs
    rfl
  | cons kv rest ih =>
    intro kvs
    rw [List.foldl_cons, List.foldl_cons]
    exact ih _

theorem applyRecord_jobj (kvs : List (String × JVal)) (r : List (String × String)) :
    applyRecord (JVal.jobj kvs) r =
      JVal.jobj (r.foldl (fun a kv => assocSet a kv.1 (.jstr kv.2)) kvs) :=
  foldl_applyRecordStep_jobj r kvs

theorem mget_foldl_mset_notmem (f : Node × List (String × String) → Node) :
    ∀ (items : List (Node × List (String × String))) (t : PathMap) (k : String),
      (∀ pr ∈ items, pr.1.path ≠ k) →
      mget (items.foldl (fun t2 pr => mset t2 pr.1.path (f pr)) t) k = mget t k := by
  intro items
  induction items with
  | nil =>
    intro t k _
    rfl
  | cons pr rest ih =>
    intro t k hk
    rw [List.foldl_cons, ih _ _ (fun q hq => hk q (List.mem_cons_of_mem _ hq))]
    exact mget_mset_ne _ _ _ _ (hk pr (List.mem_cons_self _ _))

theorem mget_foldl_mset_mem (f : Node × List (String × String) → Node) :
    ∀ (items : List (Node × List (String × String))) (t : PathMap)
      (pr : Node × List (String × String)),
      pr ∈ items → (items.map (fun q => q.1.path)).Nodup →
      mget (items.foldl (fun t2 q => mset t2 q.1.path (f q)) t) pr.1.path =
        some (f pr) := by
  intro items
  induction items with
  | nil =>
    intro t pr hpr _
    cases hpr
  | cons q rest ih =>
    intro t pr hpr hnd
    rw [List.map_cons, List.nodup_cons] at hnd
    rw [List.foldl_cons]
    rcases List.mem_cons.mp hpr with rfl | hmem
    · rw [mget_foldl_mset_notmem f rest _ pr.1.path
        (fun r hr he => hnd.1 (he ▸ List.mem_map_of_mem (fun q2 => q2.1.path) hr))]
      exact mget_mset_self _ _ _
    · exact ih _ pr hmem hnd.2

theorem zip_getD_mem (keys parts : List String) (i : Nat) (hi : i < keys.length)
    (hlen : parts.length = keys.length) :
    (keys.getD i "", parts.getD i "") ∈ keys.zip parts := by
  have hi2 : i < parts.length := by omega
  have hiz : i < (keys.zip parts).length := by
    rw [List.length_zip]
    omega
  have h1 : keys.getD i "" = keys.get ⟨i, hi⟩ := List.getD_eq_get keys "" hi
  have h2 : parts.getD i "" = parts.get ⟨i, hi2⟩ := List.getD_eq_get parts "" hi2
  have h3 : (keys.zip parts).get ⟨i, hiz⟩ = (keys.get ⟨i, hi⟩, parts.get ⟨i, hi2⟩) := by
    simp [List.get_zip]
  rw [h1, h2, ← h3]
  exact List.get_mem _ _ _

/-- C5: the naming-spec application is all-or-nothing: one child whose token
count differs from the key count makes the whole operation return the
unchanged tree with the failure message, and when every child matches, every
child group's attributes carry each positional token under the corresponding
template key in the updated tree. -/
theorem claim5_all_or_nothing (specStr : String) (tree : PathMap) (activePath : String)
    (grp : Node)
    (hspec : ¬ strTrim specStr = "")
    (hkeys : specKeys specStr ≠ [])
    (hgrp : mget tree activePath = some grp)
    (hgt : grp.type = .group)
    (hch : groupChildren tree grp ≠ []) :
    ((∃ c ∈ groupChildren tree grp, (nameParts c).length ≠ (specKeys specStr).length) →
      onApplyNamingSpec specStr tree activePath =
        (tree, "Parsing failed: not all subgroup names match the spec.")) ∧
    ((∀ c ∈ groupChildren tree grp, (nameParts c).length = (specKeys specStr).length) →
      (specKeys specStr).Nodup →
      ((groupChildren tree grp).map Node.path).Nodup →
      ∀ c ∈ groupChildren tree grp, ∀ kvs, c.attrs = JVal.jobj kvs →
        ∀ i, i < (specKeys specStr).length →
          ∃ n, mget (onApplyNamingSpec specStr tree activePath).1 c.path = some n ∧
            jpropGet n.attrs ((specKeys specStr).getD i "") =
              some (JVal.jstr ((nameParts c).getD i ""))) := by
  have hkeysE : (specKeys specStr).isEmpty = false := by
    cases hk : specKeys specStr with
    | nil => exact absurd hk hkeys
    | cons a l => rfl
  have hchE : (groupChildren tree grp).isEmpty = false := by
    cases hk2 : groupChildren tree grp with
    | nil => exact absurd hk2 hch
    | cons a l => rfl
  have hmain : onApplyNamingSpec specStr tree activePath =
      (match parseChildren (specKeys specStr) (groupChildren tree grp) with
       | none => (tree, "Parsing failed: not all subgroup names match the spec.")
       | some parsed =>
         (parsed.foldl (fun t pr =>
            mset t pr.1.path { pr.1 with attrs := applyRecord pr.1.attrs pr.2 }) tree,
          "Applied naming spec to " ++ toString parsed.length ++ " subgroup(s).")) := by
    simp only [onApplyNamingSpec, if_neg hspec, hkeysE, hgrp, hgt, hchE,
      Bool.false_eq_true, if_false, ne_eq, not_true_eq_false]
  constructor
  · intro hex
    rw [hmain, parseChildren_eq_none _ _ hex]
  · intro hall hknd hpnd c hc kvs hkvs i hi
    have hres : (onApplyNamingSpec specStr tree activePath).1 =
        ((groupChildren tree grp).map
          (fun c2 => (c2, buildRecord (specKeys specStr) (nameParts c2)))).foldl
          (fun t pr => mset t pr.1.path { pr.1 with attrs := applyRecord pr.1.attrs pr.2 })
          tree := by
      rw [hmain, parseChildren_eq_some _ _ hall]
    refine ⟨{ c with
        attrs := applyRecord c.attrs (buildRecord (specKeys specStr) (nameParts c)) },
      ?_, ?_⟩
    · rw [hres]
      have hnd2 : ((((groupChildren tree grp).map
          (fun c2 => (c2, buildRecord (specKeys specStr) (nameParts c2)))).map
          (fun q => q.1.path)).Nodup) := by
        rw [List.map_map]
        exact hpnd
      exact mget_foldl_mset_mem
        (fun pr => { pr.1 with attrs := applyRecord pr.1.attrs pr.2 })
        ((groupChildren tree grp).map
          (fun c2 => (c2, buildRecord (specKeys specStr) (nameParts c2))))
        tree
        (c, buildRecord (specKeys specStr) (nameParts c))
        (List.mem_map_of_mem _ hc)
        hnd2
    · rw [hkvs, applyRecord_jobj, buildRecord_eq_zip _ _ hknd (hall c hc)]
      have hmem := zip_getD_mem (specKeys specStr) (nameParts c) i hi (hall c hc)
      have hfst : ((specKeys specStr).zip (nameParts c)).map Prod.fst = specKeys specStr :=
        List.map_fst_zip _ _ (le_of_eq (hall c hc).symm)
      exact assocGet_foldl_set_mem _ kvs _ hmem (by rw [hfst]; exact hknd)

def mxC5 : List (String × JVal) :=
  [("p/.zgroup", .jobj []),
   ("p/x_y/.zgroup", .jobj []),
   ("p/x/.zgroup", .jobj [])]

def grpC5 : Node :=
  Node.mk "/p" .group (.jobj []) none ["x", "x_y"]

def childC5x : Node :=
  Node.mk "/p/x" .group (.jobj []) none []

/-- C5 witness: the template a_b against children x and x_y aborts with the
failure message and the unchanged tree. -/
theorem claim5_all_or_nothing_witness :
    onApplyNamingSpec "a_b" (buildTree mxC5) "/p" =
      (buildTree mxC5, "Parsing failed: not all subgroup names match the spec.") :=
  (claim5_all_or_nothing "a_b" (buildTree mxC5) "/p" grpC5
    (by decide) (by decide) (by decide) (by decide) (by decide)).1
    ⟨childC5x, by decide, by decide⟩

theorem isSome_assocGet_assocSet (acc : List (String × JVal)) (k k' : String) (v : JVal)
    (h : (assocGet acc k').isSome = true) :
    (assocGet (assocSet acc k v) k').isSome = true := by
  by_cases he : k = k'
  · subst he
    rw [assocGet_assocSet_self]
    rfl
  · rw [assocGet_assocSet_ne _ _ _ _ he]
    exact h

theorem candStep_preserves (cands : List (String × JVal)) (arr : Node) (nm : String)
    (h : (assocGet cands nm).isSome = true) :
    (assocGet (candStep cands arr) nm).isSome = true := by
  rw [candStep]
  by_cases hc : (((getShape arr).length == 1) && isFiniteNum (getShape arr).headI) = true
  · rw [if_pos hc]
    exact isSome_assocGet_assocSet _ _ _ _ h
  · rw [if_neg hc]
    exact h

theorem candStep_registers (cands : List (String × JVal)) (arr : Node)
    (h1 : (getShape arr).length = 1) (h2 : isFiniteNum (getShape arr).headI = true) :
    (assocGet (candStep cands arr) (basename arr.path)).isSome = true := by
  rw [candStep, if_pos (by rw [h1, h2]; rfl), assocGet_assocSet_self]
  rfl

theorem isSome_coordCandidates_foldl :
    ∀ (l : List Node) (acc : List (String × JVal)) (nm : String),
      ((assocGet acc nm).isSome = true ∨
        ∃ a ∈ l, basename a.path = nm ∧ (getShape a).length = 1 ∧
          isFiniteNum (getShape a).headI = true) →
      (assocGet (l.foldl candStep acc) nm).isSome = true := by
  intro l
  induction l with
  | nil =>
    rintro acc nm (h | ⟨a, ha, -⟩)
    · exact h
    · cases ha
  | cons a rest ih =>
    rintro acc nm (h | ⟨b, hb, hbn, hb1, hbf⟩)
    · rw [List.foldl_cons]
      exact ih _ _ (Or.inl (candStep_preserves _ _ _ h))
    · rw [List.foldl_cons]
      rcases List.mem_cons.mp hb with rfl | hbr
      · exact ih _ _ (Or.inl (hbn ▸ candStep_registers acc b hb1 hbf))
      · exact ih _ _ (Or.inr ⟨b, hbr, hbn, hb1, hbf⟩)

theorem classStep_pos (cands : List (String × JVal)) (acc : List VarEntry × List VarEntry)
    (pr : Node × List String)
    (h : isCoordB cands (basename pr.1.path) pr.2 (getShape pr.1) = true) :
    classStep cands acc pr =
      (acc.1 ++ [VarEntry.mk pr.1 (basename pr.1.path) pr.2 (getShape pr.1)
        (if jsTruthy pr.1.attrs then pr.1.attrs else .jobj [])], acc.2) := by
  simp only [classStep, h, if_true]

theorem classStep_neg (cands : List (String × JVal)) (acc : List VarEntry × List VarEntry)
    (pr : Node × List String)
    (h : isCoordB cands (basename pr.1.path) pr.2 (getShape pr.1) = false) :
    classStep cands acc pr =
      (acc.1, acc.2 ++ [VarEntry.mk pr.1 (basename pr.1.path) pr.2 (getShape pr.1)
        (if jsTruthy pr.1.attrs then pr.1.attrs else .jobj [])]) := by
  simp only [classStep, h, Bool.false_eq_true, if_false]

theorem classStep_snd_subset (cands : List (String × JVal))
    (acc : List VarEntry × List VarEntry) (pr : Node × List String) (e : VarEntry)
    (he : e ∈ (classStep cands acc pr).2) :
    e ∈ acc.2 ∨
      (isCoordB cands (basename pr.1.path) pr.2 (getShape pr.1) = false ∧
        e.arr = pr.1) := by
  cases hco : isCoordB cands (basename pr.1.path) pr.2 (getShape pr.1) with
  | true =>
    rw [classStep_pos _ _ _ hco] at he
    exact Or.inl he
  | false =>
    rw [classStep_neg _ _ _ hco] at he
    rcases List.mem_append.mp he with h1 | h1
    · exact Or.inl h1
    · rcases List.mem_singleton.mp h1 with rfl
      exact Or.inr ⟨rfl, rfl⟩

theorem classStep_fst_mono (cands : List (String × JVal))
    (acc : List VarEntry × List VarEntry) (pr : Node × List String) (e : VarEntry)
    (he : e ∈ acc.1) : e ∈ (classStep cands acc pr).1 := by
  cases hco : isCoordB cands (basename pr.1.path) pr.2 (getShape pr.1) with
  | true =>
    rw [classStep_pos _ _ _ hco]
    exact List.mem_append_left _ he
  | false =>
    rw [classStep_neg _ _ _ hco]
    exact he

theorem classStep_fst_self (cands : List (String × JVal))
    (acc : List VarEntry × List VarEntry) (pr : Node × List String)
    (h : isCoordB cands (basename pr.1.path) pr.2 (getShape pr.1) = true) :
    ∃ e ∈ (classStep cands acc pr).1, e.arr = pr.1 := by
  rw [classStep_pos _ _ _ h]
  exact ⟨_, List.mem_append_right _ (List.mem_singleton_self _), rfl⟩

theorem classify_snd_ne :
    ∀ (prs : List (Node × List String)) (cands : List (String × JVal))
      (acc : List VarEntry × List VarEntry) (arr : Node),
      (∀ e ∈ acc.2, e.arr ≠ arr) →
      (∀ dims, isCoordB cands (basename arr.path) dims (getShape arr) = true) →
      ∀ e ∈ (prs.foldl (classStep cands) acc).2, e.arr ≠ arr := by
  intro prs
  induction prs with
  | nil =>
    intro cands acc arr hacc _ e he
    exact hacc e he
  | cons pr rest ih =>
    intro cands acc arr hacc htrue e he
    rw [List.foldl_cons] at he
    refine ih cands _ arr ?_ htrue e he
    intro e2 he2
    rcases classStep_snd_subset _ _ _ _ he2 with h1 | ⟨hfalse, harr⟩
    · exact hacc e2 h1
    · intro hea
      have hpeq : pr.1 = arr := harr.symm.trans hea
      rw [hpeq] at hfalse
      rw [htrue pr.2] at hfalse
      exact Bool.noConfusion hfalse

theorem classify_fst_mem :
    ∀ (prs : List (Node × List String)) (cands : List (String × JVal))
      (acc : List VarEntry × List VarEntry) (arr : Node),
      ((∃ e ∈ acc.1, e.arr = arr) ∨
        ∃ pr ∈ prs, pr.1 = arr ∧
          isCoordB cands (basename pr.1.path) pr.2 (getShape pr.1) = true) →
      ∃ e ∈ (prs.foldl (classStep cands) acc).1, e.arr = arr := by
  intro prs
  induction prs with
  | nil =>
    rintro cands acc arr (h | ⟨pr, hpr, -⟩)
    · exact h
    · cases hpr
  | cons pr rest ih =>
    rintro cands acc arr (⟨e, he, hea⟩ | ⟨q, hq, hqa, hqc⟩)
    · rw [List.foldl_cons]
      exact ih cands _ arr (Or.inl ⟨e, classStep_fst_mono _ _ _ _ he, hea⟩)
    · rw [List.foldl_cons]
      rcases List.mem_cons.mp hq with rfl | hqr
      · rcases classStep_fst_self cands acc q hqc with ⟨e, he, hea⟩
        exact ih cands _ arr (Or.inl ⟨e, he, hea.trans hqa⟩)
      · exact ih cands _ arr (Or.inr ⟨q, hqr, hqa, hqc⟩)

theorem finalDims_length (arrays : List Node) :
    (finalDims arrays).length = arrays.length := by
  simp [finalDims, dims0]

theorem isCoordB_of_oneD (cands : List (String × JVal)) (nm : String)
    (dims : List String) (shape : List JVal) (h1 : shape.length = 1)
    (h2 : (assocGet cands nm).isSome = true) :
    isCoordB cands nm dims shape = true := by
  simp [isCoordB, h1, h2]

/-- C10: every array of the classified list whose shape is a single finite
numeric entry ends among the coordinates and never among the data variables,
whatever its name and dimension names: each 1-D array registers itself as a
coordinate candidate under its own base name, which satisfies classification
condition (a). -/
theorem claim10_one_dim_is_coord (arrays : List Node) (arr : Node) (z : Int)
    (hmem : arr ∈ arrays) (hshape : getShape arr = [JVal.jnum z]) :
    (∃ e ∈ (classifyVars arrays).1, e.arr = arr) ∧
    (∀ e ∈ (classifyVars arrays).2, e.arr ≠ arr) := by
  have hlen1 : (getShape arr).length = 1 := by rw [hshape]; rfl
  have hfin : isFiniteNum (getShape arr).headI = true := by rw [hshape]; rfl
  have hcand : (assocGet (coordCandidates arrays) (basename arr.path)).isSome = true := by
    rw [coordCandidates]
    exact isSome_coordCandidates_foldl arrays [] (basename arr.path)
      (Or.inr ⟨arr, hmem, rfl, hlen1, hfin⟩)
  have hco : ∀ dims, isCoordB (coordCandidates arrays) (basename arr.path) dims
      (getShape arr) = true :=
    fun dims => isCoordB_of_oneD _ _ dims _ hlen1 hcand
  constructor
  · rw [classifyVars]
    apply classify_fst_mem
    rcases List.mem_iff_get.mp hmem with ⟨i, hget⟩
    have hi2 : (i : Nat) < (finalDims arrays).length := by
      rw [finalDims_length]
      exact i.isLt
    have hiz : (i : Nat) < (arrays.zip (finalDims arrays)).length := by
      rw [List.length_zip, finalDims_length]
      simp [i.isLt]
    refine Or.inr ⟨(arrays.zip (finalDims arrays)).get ⟨i, hiz⟩, List.get_mem _ _ _, ?_, ?_⟩
    · rw [List.get_zip]
      exact hget
    · have hfst : ((arrays.zip (finalDims arrays)).get ⟨i, hiz⟩).1 = arr := by
        rw [List.get_zip]
        exact hget
      rw [hfst]
      exact hco _
  · rw [classifyVars]
    exact classify_snd_ne _ _ ([], []) arr (fun e he => absurd he (List.not_mem_nil e)) hco

/-- C10 witness: a lone 1-D array of shape [4] is classified as a coordinate
and not as a data variable. -/
theorem claim10_one_dim_is_coord_witness :
    (∃ e ∈ (classifyVars
      [Node.mk "/v" .array (.jobj []) (some (.jobj [("shape", .jarr [.jnum 4])])) []]).1,
      e.arr = Node.mk "/v" .array (.jobj []) (some (.jobj [("shape", .jarr [.jnum 4])])) []) ∧
    (∀ e ∈ (classifyVars
      [Node.mk "/v" .array (.jobj []) (some (.jobj [("shape", .jarr [.jnum 4])])) []]).2,
      e.arr ≠ Node.mk "/v" .array (.jobj []) (some (.jobj [("shape", .jarr [.jnum 4])])) []) :=
  claim10_one_dim_is_coord _ _ 4 (List.mem_singleton_self _) (by decide)
